import Mathlib

/-!
Verification of the button-beam-desktop capture/recording engine.

This file shallowly embeds the core logic of the repository:

* `displayKey` / `isModifierKey` — the KeyClassifier of
  `src/components/AddShortcutForm.tsx` (lines 42-57 and 118-122 of the
  richer variant, called part_002 below).
* `AccState`, `accKeyDown`, `accKeyUp`, `accReset` — the ComboAccumulator:
  the insertion-ordered held-key sets (`modifierKeys`, `regularKeys`,
  JavaScript `Set`s preserve insertion order and keep the original
  position on re-insertion) and the pending debounce timeout.  The
  timeout callback closes over the combination string computed at
  scheduling time; `pending` records exactly that value, and replacing
  `pending` models `clearTimeout` followed by `setTimeout`.
* `FormState`, `fireDebounce`, `tabChange`, `handleConfirmEdit`,
  `handleDeleteCombination`, `listenerAttached` — the form-level state
  machine of part_002 (timeout callback lines 170-183, tab switch
  lines 349-359 plus the effect cleanup lines 216-224 that React runs
  whenever the effect dependencies change, step editing lines 234-244,
  deletion lines 327-330, listener wiring lines 204-208).
* `Json`, `serVal`, `parseVal`, `jsonParse` — executable models of the
  JavaScript builtins `JSON.stringify(·, null, 2)` and `JSON.parse`
  used at lines 77-79 and 299-314.  The parser follows the JSON number
  grammar (`-? (0 | [1-9][0-9]*) frac? exp?`), keeping the exact
  rational value of each literal; truthiness of a number tests its
  IEEE-754 double value, including underflow to zero.
* `handleSubmitJson` — the JSON-editor branch of `handleSubmit`
  (part_002 lines 299-314), including JavaScript truthiness of the
  `sequence` and `name` member accesses and object spread merging.
* `addOrUpdateShortcut` — the duplicate guard and persistence dispatch
  of `App.tsx` (part_000 lines 32-54); `Date.now()` is passed in as the
  explicit argument `now`.
-/

namespace ButtonBeam

/-- KeyClassifier: canonical display token of a raw key identifier
(part_002 lines 42-57). -/
def displayKey (key : String) : String :=
  if key = " " then "Space"
  else if key = "ArrowUp" then "Up"
  else if key = "ArrowDown" then "Down"
  else if key = "ArrowLeft" then "Left"
  else if key = "ArrowRight" then "Right"
  else key

/-- KeyClassifier: exactly Control, Shift, Alt and Meta are modifiers
(part_002 lines 118-122). -/
def isModifierKey (key : String) : Bool :=
  key = "Control" || key = "Shift" || key = "Alt" || key = "Meta"

/-- Insertion into a JavaScript `Set` viewed as an insertion-ordered list:
adding an element that is already present leaves the set (and its
iteration order) unchanged, otherwise the element goes to the end. -/
def setAdd (l : List String) (k : String) : List String :=
  if k ∈ l then l else l ++ [k]

/-- Deletion from a JavaScript `Set`. -/
def setDel (l : List String) (k : String) : List String :=
  l.filter (fun x => x ≠ k)

/-- JavaScript `Array.prototype.join("+")`. -/
def joinPlus : List String → String
  | [] => ""
  | [s] => s
  | s :: rest => s ++ "+" ++ joinPlus rest

/-- The combination string computed by `handleKeyDown` from the two held
key sets (part_002 lines 146-162): display tokens of the modifiers joined
by `+`, then display tokens of the regular keys joined by `+`, the groups
joined by `+`; no combination at all when no regular key is held. -/
def keyCombination (modifierKeys regularKeys : List String) : Option String :=
  let modifiers := modifierKeys.map displayKey
  let regulars := regularKeys.map displayKey
  if modifiers.length > 0 && regulars.length > 0 then
    some (joinPlus modifiers ++ "+" ++ joinPlus regulars)
  else if regulars.length > 0 then
    some (joinPlus regulars)
  else none

/-- ComboAccumulator state: the two insertion-ordered held-key sets and
the pending debounce timeout.  `pending = some c` means a timeout is
scheduled whose callback will commit the combination `c`. -/
structure AccState where
  modifierKeys : List String
  regularKeys : List String
  pending : Option String
deriving Repr, DecidableEq

/-- The accumulator with empty sets and no scheduled timeout. -/
def accReset : AccState := ⟨[], [], none⟩

/-- The handler `handleKeyDown` restricted to the accumulator (part_002 lines
124-184): a repeated event is dropped before any mutation; otherwise the
key joins the modifier or regular set, the combination is recomputed, and
if a combination exists the debounce timeout is cleared and rescheduled
with it (modelled by replacing `pending`).  When only modifiers are held
the handler returns without touching the timeout. -/
def accKeyDown (s : AccState) (key : String) (isRepeat : Bool) : AccState :=
  if isRepeat then s
  else
    let s1 :=
      if isModifierKey key then { s with modifierKeys := setAdd s.modifierKeys key }
      else { s with regularKeys := setAdd s.regularKeys key }
    match keyCombination s1.modifierKeys s1.regularKeys with
    | none => s1
    | some combo => { s1 with pending := some combo }

/-- The handler `handleKeyUp` (part_002 lines 188-197): the key leaves whichever set
classification puts it in; the pending timeout is untouched. -/
def accKeyUp (s : AccState) (key : String) : AccState :=
  if isModifierKey key then { s with modifierKeys := setDel s.modifierKeys key }
  else { s with regularKeys := setDel s.regularKeys key }

/-- Expiry of the debounce timeout at the accumulator level: the scheduled
combination is delivered as a commit and the timeout slot empties. -/
def accFire (s : AccState) : AccState × Option String :=
  match s.pending with
  | some c => ({ s with pending := none }, some c)
  | none => (s, none)

/-- The events the accumulator reacts to. -/
inductive AccEvent where
  | keyDown (key : String) (isRepeat : Bool) : AccEvent
  | keyUp (key : String) : AccEvent
  | fire : AccEvent

/-- One accumulator step together with the commit it emits, if any.  Only
timeout expiry ever emits a commit. -/
def accStep (s : AccState) : AccEvent → AccState × Option String
  | .keyDown k r => (accKeyDown s k r, none)
  | .keyUp k => (accKeyUp s k, none)
  | .fire => accFire s

/-- A run of accumulator events, collecting every emitted commit in
order. -/
def accRun (s : AccState) : List AccEvent → AccState × List String
  | [] => (s, [])
  | e :: es =>
    let (s1, out) := accStep s e
    let (s2, outs) := accRun s1 es
    (s2, out.toList ++ outs)

/-- The three mode tabs of the capture surface. -/
inductive Tab where
  | shortcut : Tab
  | record : Tab
  | json : Tab
deriving Repr, DecidableEq

/-- The form-level state of part_002 that the capture engine mutates. -/
structure FormState where
  name : String
  sequence : List String
  isCapturing : Bool
  isRecording : Bool
  activeTab : Tab
  editingIndex : Option Nat
  editedStroke : String
  acc : AccState
deriving Repr, DecidableEq

/-- The debounce timeout callback of part_002 (lines 170-183) applied to
the form state: if a timeout is pending its combination is committed —
on the shortcut tab the sequence is replaced by the single-element list,
the name tracks the combination, and capturing is switched off; on the
record tab the combination is appended while recording is on. -/
def fireDebounce (st : FormState) : FormState :=
  match st.acc.pending with
  | none => st
  | some c =>
    let st1 := { st with acc := { st.acc with pending := none } }
    if st1.activeTab = Tab.shortcut then
      { st1 with sequence := [c], name := c, isCapturing := false }
    else if st1.activeTab = Tab.record && st1.isRecording then
      { st1 with sequence := st1.sequence ++ [c] }
    else st1

/-- Listener wiring rule of part_002 (lines 204-208): the global key
listener is attached exactly when capturing on the shortcut tab or
recording on the record tab, and no step is being edited. -/
def listenerAttached (st : FormState) : Bool :=
  (st.isCapturing && st.activeTab = Tab.shortcut
    || st.isRecording && st.activeTab = Tab.record)
    && st.editingIndex = none

/-- The `onValueChange` handler of the tab strip (part_002 lines
352-358): activates the tab, capturing is on only for the shortcut tab,
recording stops, step editing resets, and the sequence is cleared. -/
def tabValueChange (st : FormState) (v : Tab) : FormState :=
  { st with
    activeTab := v
    isCapturing := v = Tab.shortcut
    isRecording := false
    editingIndex := none
    sequence := [] }

/-- The cleanup of the key-listener effect (part_002 lines 216-224),
which React runs whenever the effect dependencies — among them
`activeTab` — change: the debounce timeout is cleared and both held-key
sets are emptied. -/
def effectCleanup (st : FormState) : FormState :=
  { st with acc := accReset }

/-- A tab change as the program performs it: the `onValueChange` handler
followed by the effect cleanup that its state updates trigger. -/
def tabChange (st : FormState) (v : Tab) : FormState :=
  effectCleanup (tabValueChange st v)

/-- The index-matching replacement map of `handleConfirmEdit`
(part_002 lines 236-240): every position is kept except the edited one,
which receives the edited text. -/
def mapReplace (e : Nat) (v : String) : Nat → List String → List String
  | _, [] => []
  | idx, x :: xs => (if idx = e then v else x) :: mapReplace e v (idx + 1) xs

/-- The handler `handleConfirmEdit` (part_002 lines 234-244): when a step is being
edited, its slot is overwritten with the free-text `editedStroke` and
editing state resets. -/
def handleConfirmEdit (st : FormState) : FormState :=
  match st.editingIndex with
  | none => st
  | some e =>
    { st with
      sequence := mapReplace e st.editedStroke 0 st.sequence
      editingIndex := none
      editedStroke := "" }

/-- The index filter of `handleDeleteCombination` (part_002 lines
327-330): keep every element whose position differs from the deleted
one. -/
def filterIdxNe (index : Nat) : Nat → List String → List String
  | _, [] => []
  | i, x :: xs =>
    if i = index then filterIdxNe index (i + 1) xs
    else x :: filterIdxNe index (i + 1) xs

/-- The handler `handleDeleteCombination` (part_002 lines 327-330). -/
def handleDeleteCombination (st : FormState) (index : Nat) : FormState :=
  { st with sequence := filterIdxNe index 0 st.sequence }

/-! ## JSON values, `JSON.stringify(·, null, 2)` and `JSON.parse` -/

/-- Structured JSON values.  A number carries the exact rational value
of its literal; `JSON.parse` rounds that value to an IEEE-754 double,
which identifies some distinct literals beyond the 53rd significant bit
— a distinction no claim observes (the program only ever serializes and
compares integral ids) — and underflows tiny magnitudes to zero, which
`truthy` accounts for.  Strings are sequences of Unicode scalar values
(Lean strings); a `\uXXXX` escape denoting a lone UTF-16 surrogate,
which a JavaScript string can hold but a scalar sequence cannot, is
outside the model. -/
inductive Json where
  | null : Json
  | bool (b : Bool) : Json
  | num (q : ℚ) : Json
  | str (s : String) : Json
  | arr (items : List Json) : Json
  | obj (members : List (String × Json)) : Json

/-- Lowercase hexadecimal digit, as `JSON.stringify` emits in `\u00XX`
escapes. -/
def hexDigit (n : Nat) : Char :=
  if n < 10 then Char.ofNat (48 + n) else Char.ofNat (87 + n)

/-- The escape `JSON.stringify` applies to one character inside a string
literal: quote and backslash are backslash-escaped, the five named
control characters use their short escapes, any other control character
becomes `\u00XX`, and everything else is emitted verbatim. -/
def escChar (c : Char) : List Char :=
  if c = '"' then ['\\', '"']
  else if c = '\\' then ['\\', '\\']
  else if c = '\x08' then ['\\', 'b']
  else if c = '\x09' then ['\\', 't']
  else if c = '\x0a' then ['\\', 'n']
  else if c = '\x0c' then ['\\', 'f']
  else if c = '\x0d' then ['\\', 'r']
  else if c.toNat < 32 then
    ['\\', 'u', '0', '0', hexDigit (c.toNat / 16), hexDigit (c.toNat % 16)]
  else [c]

/-- Escape a whole string body. -/
def escStr : List Char → List Char
  | [] => []
  | c :: cs => escChar c ++ escStr cs

/-- Decimal digits of a natural number, most significant first;
fuel-indexed so the definition is structural. -/
def natDigitsAux : Nat → Nat → List Char
  | 0, _ => []
  | fuel + 1, n =>
    if n < 10 then [Char.ofNat (48 + n)]
    else natDigitsAux fuel (n / 10) ++ [Char.ofNat (48 + n % 10)]

/-- Decimal digits of a natural number. -/
def natDigits (n : Nat) : List Char := natDigitsAux (n + 1) n

/-- Decimal rendering of an integer. -/
def intChars (i : Int) : List Char :=
  if i < 0 then '-' :: natDigits i.natAbs else natDigits i.toNat

/-- The indentation prefix `JSON.stringify` uses at nesting depth
`n / 2`. -/
def indentChars (n : Nat) : List Char := List.replicate n ' '

mutual

/-- JavaScript `JSON.stringify(v, null, 2)` at indentation `ind`, as the
character list of the produced text.  A number is emitted as the decimal
digits of its integer numerator: the only numbers the program ever
serializes are integral ids, on which this coincides with the JavaScript
number-to-string conversion. -/
def serVal (ind : Nat) : Json → List Char
  | .null => "null".data
  | .bool true => "true".data
  | .bool false => "false".data
  | .num q => intChars q.num
  | .str s => '"' :: escStr s.data ++ ['"']
  | .arr [] => "[]".data
  | .arr (x :: xs) =>
    '[' :: '\n' :: indentChars (ind + 2) ++ serVal (ind + 2) x ++
      serItems (ind + 2) xs ++ '\n' :: indentChars ind ++ [']']
  | .obj [] => ['\x7b', '\x7d']
  | .obj (kv :: kvs) =>
    '\x7b' :: '\n' :: indentChars (ind + 2) ++ ('"' :: escStr kv.1.data ++ ['"']) ++
      ':' :: ' ' :: serVal (ind + 2) kv.2 ++
      serMembers (ind + 2) kvs ++ '\n' :: indentChars ind ++ ['\x7d']

/-- The `,\n`-separated continuation of a pretty-printed array. -/
def serItems (ind : Nat) : List Json → List Char
  | [] => []
  | x :: xs => ',' :: '\n' :: indentChars ind ++ serVal ind x ++ serItems ind xs

/-- The `,\n`-separated continuation of a pretty-printed object. -/
def serMembers (ind : Nat) : List (String × Json) → List Char
  | [] => []
  | kv :: kvs => ',' :: '\n' :: indentChars ind ++ ('"' :: escStr kv.1.data ++ ['"']) ++
      ':' :: ' ' :: serVal ind kv.2 ++ serMembers ind kvs

end

/-- JSON whitespace. -/
def isWsChar (c : Char) : Bool := c = ' ' || c = '\n' || c = '\t' || c = '\r'

/-- Drop leading JSON whitespace. -/
def skipWs : List Char → List Char
  | [] => []
  | c :: cs => if isWsChar c then skipWs cs else c :: cs

/-- Value of a hexadecimal digit character. -/
def hexVal (c : Char) : Option Nat :=
  if '0' ≤ c ∧ c ≤ '9' then some (c.toNat - 48)
  else if 'a' ≤ c ∧ c ≤ 'f' then some (c.toNat - 87)
  else if 'A' ≤ c ∧ c ≤ 'F' then some (c.toNat - 55)
  else none

/-- Read a JSON string body after its opening quote: returns the decoded
content and the text after the closing quote.  Raw control characters
are rejected, escapes are decoded as `JSON.parse` does. -/
def readStr : List Char → Option (List Char × List Char)
  | [] => none
  | c :: rest =>
    if c = '"' then some ([], rest)
    else if c = '\\' then
      match rest with
      | [] => none
      | e :: rest2 =>
        if e = '"' then (fun p => ('"' :: p.1, p.2)) <$> readStr rest2
        else if e = '\\' then (fun p => ('\\' :: p.1, p.2)) <$> readStr rest2
        else if e = '/' then (fun p => ('/' :: p.1, p.2)) <$> readStr rest2
        else if e = 'b' then (fun p => ('\x08' :: p.1, p.2)) <$> readStr rest2
        else if e = 'f' then (fun p => ('\x0c' :: p.1, p.2)) <$> readStr rest2
        else if e = 'n' then (fun p => ('\x0a' :: p.1, p.2)) <$> readStr rest2
        else if e = 'r' then (fun p => ('\x0d' :: p.1, p.2)) <$> readStr rest2
        else if e = 't' then (fun p => ('\x09' :: p.1, p.2)) <$> readStr rest2
        else if e = 'u' then
          match rest2 with
          | h1 :: h2 :: h3 :: h4 :: rest3 =>
            match hexVal h1, hexVal h2, hexVal h3, hexVal h4 with
            | some a, some b, some c2, some d =>
              (fun p => (Char.ofNat (4096 * a + 256 * b + 16 * c2 + d) :: p.1, p.2)) <$>
                readStr rest3
            | _, _, _, _ => none
          | _ => none
        else none
    else if c.toNat < 32 then none
    else (fun p => (c :: p.1, p.2)) <$> readStr rest

/-- Split off the leading run of decimal digits. -/
def spanDigits : List Char → List Char × List Char
  | [] => ([], [])
  | c :: cs =>
    if c.isDigit then ((spanDigits cs).1.cons c, (spanDigits cs).2)
    else ([], c :: cs)

/-- Decimal digits to a natural number, most significant first. -/
def digitsToNat (acc : Nat) : List Char → Nat
  | [] => acc
  | c :: cs => digitsToNat (10 * acc + (c.toNat - 48)) cs

/-- The integer part of a JSON number: a single `0`, or a non-zero digit
followed by further digits.  A leading zero is never followed by more
digits — attempting that (as in `05`) leaves the extra digit for the
caller, where it can never form valid JSON, so such texts are rejected
exactly as `JSON.parse` rejects them. -/
def parseIntPart (cs : List Char) : Option (Nat × List Char) :=
  match cs with
  | [] => none
  | c :: rest =>
    if c = '0' then some (0, rest)
    else if c.isDigit then
      match spanDigits (c :: rest) with
      | (ds, rest2) => some (digitsToNat 0 ds, rest2)
    else none

/-- The optional fraction of a JSON number: a decimal point must be
followed by at least one digit; with no decimal point the fraction is
empty.  Returns the fraction digits as a value and their count. -/
def parseFrac (cs : List Char) : Option (Nat × Nat × List Char) :=
  match cs with
  | [] => some (0, 0, [])
  | c :: rest =>
    if c = '.' then
      match spanDigits rest with
      | ([], _) => none
      | (ds, rest2) => some (digitsToNat 0 ds, ds.length, rest2)
    else some (0, 0, c :: rest)

/-- The optional exponent of a JSON number: `e` or `E`, an optional
sign, then at least one digit. -/
def parseExp (cs : List Char) : Option (Int × List Char) :=
  match cs with
  | [] => some (0, [])
  | c :: rest =>
    if c = 'e' ∨ c = 'E' then
      match rest with
      | [] => none
      | s :: rest2 =>
        if s = '+' then
          match spanDigits rest2 with
          | ([], _) => none
          | (ds, r) => some ((digitsToNat 0 ds : Int), r)
        else if s = '-' then
          match spanDigits rest2 with
          | ([], _) => none
          | (ds, r) => some (-(digitsToNat 0 ds : Int), r)
        else
          match spanDigits (s :: rest2) with
          | ([], _) => none
          | (ds, r) => some ((digitsToNat 0 ds : Int), r)
    else some (0, c :: rest)

/-- A JSON number after its optional minus sign, following the JSON
grammar `int frac? exp?`, with its exact rational value. -/
def parseNumAfterSign (neg : Bool) (cs : List Char) : Option (Json × List Char) :=
  match parseIntPart cs with
  | none => none
  | some (ip, rest1) =>
    match parseFrac rest1 with
    | none => none
    | some (fv, fc, rest2) =>
      match parseExp rest2 with
      | none => none
      | some (e, rest3) =>
        let mag : ℚ := ((ip : ℚ) + (fv : ℚ) / 10 ^ fc) * 10 ^ e
        some (.num (if neg then -mag else mag), rest3)

mutual

/-- Fuel-indexed recursive-descent JSON value parser modelling
`JSON.parse`: skips leading whitespace, then dispatches on the first
character.  Fuel bounds the nesting and iteration depth; `jsonParse`
supplies more fuel than any input can consume. -/
def parseVal : Nat → List Char → Option (Json × List Char)
  | 0, _ => none
  | fuel + 1, cs =>
    match skipWs cs with
    | [] => none
    | c :: rest =>
      if c = 'n' then
        match rest with
        | 'u' :: 'l' :: 'l' :: rest2 => some (.null, rest2)
        | _ => none
      else if c = 't' then
        match rest with
        | 'r' :: 'u' :: 'e' :: rest2 => some (.bool true, rest2)
        | _ => none
      else if c = 'f' then
        match rest with
        | 'a' :: 'l' :: 's' :: 'e' :: rest2 => some (.bool false, rest2)
        | _ => none
      else if c = '"' then
        match readStr rest with
        | some (content, rest2) => some (.str (String.mk content), rest2)
        | none => none
      else if c = '[' then
        match skipWs rest with
        | ']' :: rest2 => some (.arr [], rest2)
        | other =>
          match parseVal fuel other with
          | some (v, rest2) => parseArrTail fuel [v] rest2
          | none => none
      else if c = '\x7b' then
        match skipWs rest with
        | '\x7d' :: rest2 => some (.obj [], rest2)
        | other => parseMember fuel [] other
      else if c = '-' then parseNumAfterSign true rest
      else if c.isDigit then parseNumAfterSign false (c :: rest)
      else none

/-- After one array element: expect `,` and a further element, or `]`. -/
def parseArrTail : Nat → List Json → List Char → Option (Json × List Char)
  | 0, _, _ => none
  | fuel + 1, acc, cs =>
    match skipWs cs with
    | ',' :: rest =>
      match parseVal fuel rest with
      | some (v, rest2) => parseArrTail fuel (acc ++ [v]) rest2
      | none => none
    | ']' :: rest => some (.arr acc, rest)
    | _ => none

/-- One object member: a quoted key, `:`, a value, then the object
continuation. -/
def parseMember : Nat → List (String × Json) → List Char → Option (Json × List Char)
  | 0, _, _ => none
  | fuel + 1, acc, cs =>
    match skipWs cs with
    | '"' :: rest =>
      match readStr rest with
      | some (key, rest2) =>
        match skipWs rest2 with
        | ':' :: rest3 =>
          match parseVal fuel rest3 with
          | some (v, rest4) => parseObjTail fuel (acc ++ [(String.mk key, v)]) rest4
          | none => none
        | _ => none
      | none => none
    | _ => none

/-- After one object member: expect `,` and a further member, or the
closing brace. -/
def parseObjTail : Nat → List (String × Json) → List Char → Option (Json × List Char)
  | 0, _, _ => none
  | fuel + 1, acc, cs =>
    match skipWs cs with
    | ',' :: rest => parseMember fuel acc rest
    | '\x7d' :: rest => some (.obj acc, rest)
    | _ => none

end

/-- JavaScript `JSON.parse`: a single JSON value surrounded by nothing but
whitespace; anything else raises, modelled as `none`. -/
def jsonParse (s : String) : Option Json :=
  match parseVal (s.length + 1) s.data with
  | some (v, rest) =>
    match skipWs rest with
    | [] => some v
    | _ => none
  | none => none

/-- JavaScript member access `j.key` on a parsed JSON value: only
objects have members, and with duplicate keys the last occurrence
wins. -/
def jGet (j : Json) (key : String) : Option Json :=
  match j with
  | .obj members =>
    members.foldl (fun acc kv => if kv.1 = key then some kv.2 else acc) none
  | _ => none

/-- JavaScript truthiness of a member access: a missing member
(`undefined`), `null`, `false`, the number zero and `""` are falsy;
every other value — including the empty array and the empty object — is
truthy.  A number is tested as its IEEE-754 double: a literal is falsy
exactly when its value rounds to zero, i.e. when its magnitude is at
most `2 ^ (-1075)` — half the smallest subnormal, the tie rounding to
the even mantissa 0 — so tiny non-zero literals such as `2e-324` are
falsy just as in JavaScript. -/
def truthy : Option Json → Bool
  | none => false
  | some .null => false
  | some (.bool b) => b
  | some (.num q) => decide ((1 : ℚ) < |q| * 2 ^ 1075)
  | some (.str s) => s ≠ ""
  | some (.arr _) => true
  | some (.obj _) => true

/-- Object spread update for one key, preserving member order. -/
def spreadPut (members : List (String × Json)) (key : String) (v : Json) :
    List (String × Json) :=
  if members.any (fun kv => kv.1 = key) then
    members.map (fun kv => if kv.1 = key then (key, v) else kv)
  else members ++ [(key, v)]

/-- JavaScript object spread of the parsed JSON onto an existing
object: keys of the base keep their positions with overridden values,
new keys are appended in order.  Spreading a non-object contributes no
members. -/
def spreadMerge (base : Json) (over : Json) : Json :=
  match base, over with
  | .obj baseMembers, .obj overMembers =>
    .obj (overMembers.foldl (fun acc kv => spreadPut acc kv.1 kv.2) baseMembers)
  | .obj baseMembers, _ => .obj baseMembers
  | _, _ => over

/-- The Shortcut record of part_002 (lines 27-31). -/
structure Shortcut where
  id : Option Nat
  name : Option String
  sequence : List String
deriving Repr, DecidableEq

/-- The JSON object a Shortcut denotes; `JSON.stringify` skips the
optional fields when they are absent (`undefined`). -/
def shortcutToJson (s : Shortcut) : Json :=
  .obj ((s.id.map (fun i => ("id", Json.num (i : ℚ)))).toList ++
    (s.name.map (fun n => ("name", Json.str n))).toList ++
    [("sequence", Json.arr (s.sequence.map Json.str))])

/-- The initial JSON-editor text (part_002 lines 77-79):
`JSON.stringify(existingShortcut, null, 2)`. -/
def serializeShortcut (s : Shortcut) : String :=
  String.mk (serVal 0 (shortcutToJson s))

/-- The two error conditions of the JSON editor. -/
inductive JsonErr where
  | malformedText : JsonErr
  | missingRequiredFields : JsonErr
deriving Repr, DecidableEq

/-- The inline message each condition surfaces (part_002 lines 307 and
311). -/
def jsonErrText : JsonErr → String
  | .malformedText => "Invalid JSON format."
  | .missingRequiredFields =>
    "JSON must contain \x27sequence\x27 and \x27name\x27 fields."

/-- Whether a parsed JSON value is `null` — the one parse result whose
member access throws in JavaScript. -/
def isNullJson : Json → Bool
  | .null => true
  | _ => false

/-- The JSON-editor branch of `handleSubmit` (part_002 lines 299-314):
parse the editor text; on failure surface `MalformedText` and stop.
When the parsed value is `null`, the member access
`parsedJson.sequence` throws a TypeError that the same `try` catches,
surfacing the very same "Invalid JSON format." message — so it lands in
the `MalformedText` condition.  Otherwise, if the `sequence` and `name`
member accesses on the parsed value are not both truthy surface
`MissingRequiredFields` and stop; else the candidate is the parsed
value, spread onto the existing shortcut when editing. -/
def handleSubmitJson (existingShortcut : Option Shortcut) (jsonInput : String) :
    Except JsonErr Json :=
  match jsonParse jsonInput with
  | none => .error .malformedText
  | some parsedJson =>
    if isNullJson parsedJson then .error .malformedText
    else if truthy (jGet parsedJson "sequence") && truthy (jGet parsedJson "name") then
      .ok (match existingShortcut with
        | some ex => spreadMerge (shortcutToJson ex) parsedJson
        | none => parsedJson)
    else .error .missingRequiredFields

/-! ## App-level persistence dispatch (part_000) -/

/-- The Shortcut record of part_000 (its own interface, lines 9-12):
the legacy single-combination shape with a `keys` string. -/
structure AppShortcut where
  id : Option Nat
  keys : String
deriving Repr, DecidableEq

/-- The persistence-collaborator calls `addOrUpdateShortcut` can issue. -/
inductive PersistCall where
  | add (s : AppShortcut) : PersistCall
  | update (s : AppShortcut) : PersistCall
deriving Repr, DecidableEq

/-- JavaScript truthiness of the optional id in `if (shortcut.id)`. -/
def idTruthy : Option Nat → Bool
  | some n => n ≠ 0
  | none => false

/-- The function `addOrUpdateShortcut` of part_000 (lines 32-54), as the list of
persistence calls it issues: no call when some existing shortcut has the
same `keys` and a different id; otherwise update when the candidate id
is truthy, else create with the fresh id `now` (`Date.now()` at the call
site). -/
def addOrUpdateShortcut (shortcuts : List AppShortcut) (shortcut : AppShortcut)
    (now : Nat) : List PersistCall :=
  let duplicate := shortcuts.any
    (fun existing => existing.keys == shortcut.keys && existing.id != shortcut.id)
  if duplicate then []
  else if idTruthy shortcut.id then [.update shortcut]
  else [.add { shortcut with id := some now }]

/-! ## Well-formed combination strings (spec section 3) -/

/-- A well-formed combination string: the composition of some list of
held modifier keys and some non-empty list of held regular keys — each
regular key a non-modifier, non-empty identifier, as delivered by the
event source (`event.key` is never the empty string). -/
def wellFormedCombo (s : String) : Prop :=
  ∃ mods regs : List String,
    (∀ m ∈ mods, isModifierKey m = true) ∧
    (∀ r ∈ regs, isModifierKey r = false ∧ r ≠ "") ∧
    regs ≠ [] ∧
    keyCombination mods regs = some s

/-- Validity of an accumulator state: the modifier set holds modifiers,
the regular set holds non-empty non-modifiers, and any scheduled commit
is a well-formed combination. -/
def AccOk (s : AccState) : Prop :=
  (∀ m ∈ s.modifierKeys, isModifierKey m = true) ∧
  (∀ r ∈ s.regularKeys, isModifierKey r = false ∧ r ≠ "") ∧
  (∀ c, s.pending = some c → wellFormedCombo c)

/-! ## Basic lemmas about the accumulator -/

theorem joinPlus_cons_cons (x y : String) (t : List String) :
    joinPlus (x :: y :: t) = x ++ "+" ++ joinPlus (y :: t) := by
  simp [joinPlus]

theorem joinPlus_append (a b : List String) (ha : a ≠ []) (hb : b ≠ []) :
    joinPlus (a ++ b) = joinPlus a ++ "+" ++ joinPlus b := by
  induction a with
  | nil => exact absurd rfl ha
  | cons x xs ih =>
    cases xs with
    | nil =>
      cases b with
      | nil => exact absurd rfl hb
      | cons y ys => simp [joinPlus]
    | cons x2 xs2 =>
      have h2 := ih (by simp)
      have e0 : (x :: x2 :: xs2) ++ b = x :: (x2 :: xs2 ++ b) := by simp
      have e1 : x2 :: xs2 ++ b = x2 :: (xs2 ++ b) := by simp
      rw [e0, e1, joinPlus_cons_cons, joinPlus_cons_cons, ← e1, h2]
      simp [String.append_assoc]

/-- The composition the source computes when at least one regular key is
held, in the single-join form of the specification. -/
theorem keyCombination_of_ne_nil (mods regs : List String) (h : regs ≠ []) :
    keyCombination mods regs = some (joinPlus ((mods ++ regs).map displayKey)) := by
  unfold keyCombination
  cases mods with
  | nil =>
    simp only [List.map_nil, List.length_nil, List.nil_append]
    cases regs with
    | nil => exact absurd rfl h
    | cons r rs => simp
  | cons m ms =>
    cases regs with
    | nil => exact absurd rfl h
    | cons r rs =>
      simp only [List.map_cons, List.length_cons, List.map_append]
      have hlen : (0 : Nat) < ms.length + 1 := Nat.succ_pos _
      rw [joinPlus_append]
      · simp
      · simp
      · simp

theorem keyCombination_nil_regs (mods : List String) :
    keyCombination mods [] = none := by
  simp [keyCombination]

theorem setAdd_ne_nil_of_ne_nil (l : List String) (k : String) (h : l ≠ []) :
    setAdd l k ≠ [] := by
  unfold setAdd
  split
  · exact h
  · simp

theorem setAdd_self_ne_nil (l : List String) (k : String) : setAdd l k ≠ [] := by
  unfold setAdd
  split
  · intro hnil
    subst hnil
    simp_all
  · simp

theorem mem_setAdd (l : List String) (k x : String) (h : x ∈ setAdd l k) :
    x ∈ l ∨ x = k := by
  unfold setAdd at h
  split at h
  · exact Or.inl h
  · rcases List.mem_append.mp h with h1 | h1
    · exact Or.inl h1
    · exact Or.inr (by simpa using h1)

/-- Normal form of a non-repeat key-down step: sets updated by
classification, pending rescheduled exactly when a combination exists. -/
theorem accKeyDown_eq (s : AccState) (k : String) :
    accKeyDown s k false =
      { modifierKeys := if isModifierKey k then setAdd s.modifierKeys k else s.modifierKeys
        regularKeys := if isModifierKey k then s.regularKeys else setAdd s.regularKeys k
        pending := match keyCombination
            (if isModifierKey k then setAdd s.modifierKeys k else s.modifierKeys)
            (if isModifierKey k then s.regularKeys else setAdd s.regularKeys k) with
          | none => s.pending
          | some combo => some combo } := by
  unfold accKeyDown
  cases hm : isModifierKey k <;>
    simp only [hm, Bool.false_eq_true, if_false, if_true, ite_true, ite_false] <;>
    (cases hkc : keyCombination
        (if isModifierKey k then setAdd s.modifierKeys k else s.modifierKeys)
        (if isModifierKey k then s.regularKeys else setAdd s.regularKeys k) <;>
      simp_all [hm])

theorem accKeyDown_regularKeys (s : AccState) (k : String) :
    (accKeyDown s k false).regularKeys =
      if isModifierKey k then s.regularKeys else setAdd s.regularKeys k := by
  rw [accKeyDown_eq]

theorem accKeyDown_modifierKeys (s : AccState) (k : String) :
    (accKeyDown s k false).modifierKeys =
      if isModifierKey k then setAdd s.modifierKeys k else s.modifierKeys := by
  rw [accKeyDown_eq]

theorem accKeyDown_regular_mono (s : AccState) (k : String)
    (h : s.regularKeys ≠ []) : (accKeyDown s k false).regularKeys ≠ [] := by
  rw [accKeyDown_regularKeys]
  split
  · exact h
  · exact setAdd_self_ne_nil _ _

theorem accKeyDown_regular_of_nonmod (s : AccState) (k : String)
    (h : isModifierKey k = false) : (accKeyDown s k false).regularKeys ≠ [] := by
  rw [accKeyDown_regularKeys, h]
  simpa using setAdd_self_ne_nil s.regularKeys k

/-- After any non-repeat key-down whose resulting regular set is
non-empty, the rescheduled timeout carries exactly the combination of
the resulting held-key state: the handler cancels any outstanding
timeout and schedules the fresh combination. -/
theorem accKeyDown_pending_of_regular (s : AccState) (k : String)
    (h : (accKeyDown s k false).regularKeys ≠ []) :
    (accKeyDown s k false).pending =
      keyCombination (accKeyDown s k false).modifierKeys
        (accKeyDown s k false).regularKeys := by
  rw [accKeyDown_eq] at *
  simp only at h ⊢
  obtain ⟨c, hc⟩ : ∃ c, keyCombination
      (if isModifierKey k then setAdd s.modifierKeys k else s.modifierKeys)
      (if isModifierKey k then s.regularKeys else setAdd s.regularKeys k) = some c :=
    ⟨_, keyCombination_of_ne_nil _ _ h⟩
  rw [hc]

def keyDownEvents (keys : List String) : List AccEvent :=
  keys.map (fun k => .keyDown k false)

theorem accRun_append (s : AccState) (es1 es2 : List AccEvent) :
    accRun s (es1 ++ es2) =
      ((accRun (accRun s es1).1 es2).1,
        (accRun s es1).2 ++ (accRun (accRun s es1).1 es2).2) := by
  induction es1 generalizing s with
  | nil => simp [accRun]
  | cons e es ih =>
    simp only [List.cons_append, accRun, List.append_eq]
    rw [ih]
    simp [List.append_assoc]

theorem accRun_keyDowns (s : AccState) (keys : List String) :
    accRun s (keyDownEvents keys) =
      (keys.foldl (fun t k => accKeyDown t k false) s, []) := by
  induction keys generalizing s with
  | nil => simp [keyDownEvents, accRun]
  | cons k ks ih =>
    simp only [keyDownEvents, List.map_cons, accRun, accStep, List.foldl_cons]
    rw [show (keyDownEvents ks) = ks.map (fun k => .keyDown k false) from rfl] at ih
    rw [ih]
    simp

theorem foldl_keyDown_regular_mono (keys : List String) (s : AccState)
    (h : s.regularKeys ≠ []) :
    (keys.foldl (fun t k => accKeyDown t k false) s).regularKeys ≠ [] := by
  induction keys generalizing s with
  | nil => exact h
  | cons k ks ih => exact ih _ (accKeyDown_regular_mono s k h)

theorem foldl_keyDown_regular (keys : List String) (s : AccState)
    (h : ∃ k ∈ keys, isModifierKey k = false) :
    (keys.foldl (fun t k => accKeyDown t k false) s).regularKeys ≠ [] := by
  induction keys generalizing s with
  | nil => simp at h
  | cons k ks ih =>
    obtain ⟨k0, hk0, hmod⟩ := h
    rcases List.mem_cons.mp hk0 with rfl | hk0
    · exact foldl_keyDown_regular_mono ks _ (accKeyDown_regular_of_nonmod s k0 hmod)
    · exact ih _ ⟨k0, hk0, hmod⟩

/-- The settled-timeout invariant: whenever the regular set is non-empty
the pending timeout carries the combination of the current held-key
state.  Preserved by every non-repeat key-down, hence by any key-down
run. -/
def PendingSettled (s : AccState) : Prop :=
  s.regularKeys ≠ [] →
    s.pending = keyCombination s.modifierKeys s.regularKeys

theorem pendingSettled_keyDown (s : AccState) (k : String) :
    PendingSettled (accKeyDown s k false) :=
  fun h => accKeyDown_pending_of_regular s k h

theorem foldl_keyDown_settled (keys : List String) (s : AccState)
    (hs : PendingSettled s) :
    PendingSettled (keys.foldl (fun t k => accKeyDown t k false) s) := by
  induction keys generalizing s with
  | nil => exact hs
  | cons k ks ih => exact ih _ (pendingSettled_keyDown s k)

/-! ## Claim C9 — repeat-immunity -/

/-- C9: a key-down event flagged as repeat is a complete no-op on the
accumulator: both held-key sets are unchanged and the debounce timeout is
neither started nor restarted, whatever the current state. -/
theorem repeat_keydown_noop (s : AccState) (key : String) :
    accKeyDown s key true = s := by
  simp [accKeyDown]

/-! ## Claim C3 — combination composition -/

/-- C3: the candidate combination is the display tokens of the held
modifiers in press order, then those of the held regular keys in press
order, all joined by `+`; and with no regular key held there is no
candidate, and a modifier key-down leaves the debounce timeout
untouched. -/
theorem combination_composition :
    (∀ mods regs : List String, regs ≠ [] →
      keyCombination mods regs = some (joinPlus ((mods ++ regs).map displayKey))) ∧
    (∀ (s : AccState) (k : String), isModifierKey k = true → s.regularKeys = [] →
      keyCombination (accKeyDown s k false).modifierKeys
          (accKeyDown s k false).regularKeys = none ∧
      (accKeyDown s k false).pending = s.pending) := by
  constructor
  · intro mods regs h
    exact keyCombination_of_ne_nil mods regs h
  · intro s k hmod hregs
    have hr : (accKeyDown s k false).regularKeys = [] := by
      rw [accKeyDown_regularKeys, hmod]
      simpa using hregs
    refine ⟨by rw [hr]; exact keyCombination_nil_regs _, ?_⟩
    rw [accKeyDown_eq]
    simp only [hmod, if_true, ite_true]
    rw [hregs, keyCombination_nil_regs]

theorem combination_composition_witness :
    keyCombination ["Control"] ["k"] = some "Control+k" := by
  have h := combination_composition.1 ["Control"] ["k"] (by simp)
  simpa using h

/-! ## Claim C2 — debounce collapse -/

/-- C2: a run of N ≥ 1 non-repeat key-downs, none of whose debounce
windows is allowed to expire in between (no `fire` event inside the
run), followed by the single expiry of the last scheduled timeout, emits
exactly one commit, and its value is the combination implied by the
held-key state after the last key-down; every key-down that schedules
cancels the previously outstanding timeout by replacing it.  The run
must contain at least one regular key, since a modifier-only run never
schedules a timeout at all. -/
theorem debounce_collapse (keys : List String)
    (h : ∃ k ∈ keys, isModifierKey k = false) :
    ∃ c, keyCombination (accRun accReset (keyDownEvents keys)).1.modifierKeys
        (accRun accReset (keyDownEvents keys)).1.regularKeys = some c ∧
      (accRun accReset (keyDownEvents keys ++ [AccEvent.fire])).2 = [c] := by
  have hrun := accRun_keyDowns accReset keys
  set sfin := keys.foldl (fun t k => accKeyDown t k false) accReset with hsfin
  have hregs : sfin.regularKeys ≠ [] := foldl_keyDown_regular keys accReset h
  have hsettled : PendingSettled sfin :=
    foldl_keyDown_settled keys accReset (fun hne => absurd rfl hne)
  obtain ⟨c, hc⟩ : ∃ c, keyCombination sfin.modifierKeys sfin.regularKeys = some c :=
    ⟨_, keyCombination_of_ne_nil _ _ hregs⟩
  refine ⟨c, by rw [hrun]; exact hc, ?_⟩
  rw [accRun_append, hrun]
  have hpend : sfin.pending = some c := by rw [hsettled hregs]; exact hc
  simp [accRun, accStep, accFire, hpend]

theorem debounce_collapse_witness :
    (accRun accReset (keyDownEvents ["Control", "k"] ++ [AccEvent.fire])).2 =
      ["Control+k"] := by
  obtain ⟨c, hc, hrun⟩ := debounce_collapse ["Control", "k"] ⟨"k", by simp, by rfl⟩
  have hval : keyCombination
      (accRun accReset (keyDownEvents ["Control", "k"])).1.modifierKeys
      (accRun accReset (keyDownEvents ["Control", "k"])).1.regularKeys =
      some "Control+k" := by rfl
  rw [hval] at hc
  rw [hrun, Option.some_inj.mp hc]

/-! ## Claim C5 — one-shot commit in shortcut-capture mode -/

/-- C5: while the shortcut tab is active, a delivered commit replaces
the whole sequence by the one-element list of the committed combination,
sets the name to that combination, switches capturing off (so the key
listener detaches and no further commit can be captured until the mode
is re-entered), and leaves the sequence with length exactly 1. -/
theorem shortcut_commit_one_shot (st : FormState) (c : String)
    (hpend : st.acc.pending = some c) (htab : st.activeTab = Tab.shortcut) :
    (fireDebounce st).sequence = [c] ∧
    (fireDebounce st).name = c ∧
    (fireDebounce st).isCapturing = false ∧
    listenerAttached (fireDebounce st) = false ∧
    (fireDebounce st).sequence.length = 1 := by
  unfold fireDebounce
  rw [hpend]
  simp [htab, listenerAttached]

theorem shortcut_commit_one_shot_witness :
    (fireDebounce ⟨"", [], true, false, Tab.shortcut, none, "",
        ⟨["Control"], ["k"], some "Control+k"⟩⟩).sequence = ["Control+k"] :=
  (shortcut_commit_one_shot ⟨"", [], true, false, Tab.shortcut, none, "",
    ⟨["Control"], ["k"], some "Control+k"⟩⟩ "Control+k" rfl rfl).1

/-! ## Claim C8 — tab change clears the sequence and resets the accumulator -/

/-- C8: any tab change clears the in-progress sequence, and — through
the effect cleanup its state updates trigger — empties both held-key
sets and cancels any pending debounce timeout. -/
theorem tab_change_resets (st : FormState) (v : Tab) :
    (tabChange st v).sequence = [] ∧
    (tabChange st v).acc = accReset ∧
    (tabChange st v).acc.modifierKeys = [] ∧
    (tabChange st v).acc.regularKeys = [] ∧
    (tabChange st v).acc.pending = none := by
  simp [tabChange, effectCleanup, tabValueChange, accReset]

/-! ## Claim C4 — duplicate guard -/

/-- C4: when some existing shortcut has the same `keys` content as the
candidate under a different (possibly absent-on-one-side) id, submission
issues no persistence call at all; otherwise exactly one call is issued
— an update when the candidate carries a (truthy) id, else a create
with the fresh caller-assigned id. -/
theorem duplicate_guard (shortcuts : List AppShortcut) (c : AppShortcut) (now : Nat) :
    ((∃ e ∈ shortcuts, e.keys = c.keys ∧ e.id ≠ c.id) →
      addOrUpdateShortcut shortcuts c now = []) ∧
    ((¬ ∃ e ∈ shortcuts, e.keys = c.keys ∧ e.id ≠ c.id) →
      addOrUpdateShortcut shortcuts c now =
        if idTruthy c.id then [.update c] else [.add { c with id := some now }]) := by
  have hany : (shortcuts.any
      (fun existing => existing.keys == c.keys && existing.id != c.id)) = true ↔
      ∃ e ∈ shortcuts, e.keys = c.keys ∧ e.id ≠ c.id := by
    simp [List.any_eq_true]
  constructor
  · intro h
    unfold addOrUpdateShortcut
    rw [if_pos (hany.mpr h)]
  · intro h
    unfold addOrUpdateShortcut
    rw [if_neg (fun hc => h (hany.mp hc))]

theorem duplicate_guard_witness :
    addOrUpdateShortcut [⟨some 1, "A"⟩] ⟨none, "A"⟩ 7 = [] :=
  (duplicate_guard [⟨some 1, "A"⟩] ⟨none, "A"⟩ 7).1 ⟨⟨some 1, "A"⟩, by simp, rfl, by simp⟩

/-! ## Claim C7 — well-formedness of sequence elements -/

theorem displayKey_ne_empty (r : String) (h : r ≠ "") : displayKey r ≠ "" := by
  unfold displayKey
  split_ifs <;> first | decide | exact h

theorem string_length_zero (s : String) (h : s.length = 0) : s = "" := by
  cases s with
  | mk data =>
    cases data with
    | nil => rfl
    | cons c cs => simp [String.length] at h

theorem joinPlus_ne_empty (l : List String) (hl : l ≠ []) (h : ∀ x ∈ l, x ≠ "") :
    joinPlus l ≠ "" := by
  cases l with
  | nil => exact absurd rfl hl
  | cons x xs =>
    cases xs with
    | nil => simpa [joinPlus] using h x (by simp)
    | cons y ys =>
      rw [joinPlus_cons_cons]
      intro hc
      have hlen : (x ++ "+" ++ joinPlus (y :: ys)).length = 0 := by rw [hc]; rfl
      have hx : x.length ≠ 0 := fun hz => h x (by simp) (string_length_zero x hz)
      simp [String.length_append] at hlen
      omega

theorem keyCombination_wellFormed (mods regs : List String)
    (hm : ∀ m ∈ mods, isModifierKey m = true)
    (hr : ∀ r ∈ regs, isModifierKey r = false ∧ r ≠ "")
    (c : String) (hc : keyCombination mods regs = some c) : wellFormedCombo c := by
  have hregs : regs ≠ [] := by
    intro hnil
    subst hnil
    rw [keyCombination_nil_regs] at hc
    exact Option.noConfusion hc
  exact ⟨mods, regs, hm, hr, hregs, hc⟩

/-- The empty string is not a well-formed combination: every combination
contains at least one non-empty regular-key token. -/
theorem empty_not_wellFormed : ¬ wellFormedCombo "" := by
  rintro ⟨mods, regs, hm, hr, hne, hc⟩
  rw [keyCombination_of_ne_nil mods regs hne] at hc
  have hjoin : joinPlus ((mods ++ regs).map displayKey) = "" := Option.some_inj.mp hc
  apply joinPlus_ne_empty ((mods ++ regs).map displayKey) ?_ ?_ hjoin
  · intro hmapnil
    simp at hmapnil
    exact hne hmapnil.2
  · intro x hx
    obtain ⟨r, hrmem, rfl⟩ := List.mem_map.mp hx
    rcases List.mem_append.mp hrmem with h1 | h1
    · have hmod := hm r h1
      have hcases : r = "Control" ∨ r = "Shift" ∨ r = "Alt" ∨ r = "Meta" := by
        simpa [isModifierKey, or_assoc] using hmod
      rcases hcases with rfl | rfl | rfl | rfl <;> decide
    · exact displayKey_ne_empty r (hr r h1).2

theorem accOk_keyDown (s : AccState) (k : String) (r : Bool) (hk : k ≠ "")
    (h : AccOk s) : AccOk (accKeyDown s k r) := by
  obtain ⟨h1, h2, h3⟩ := h
  cases r with
  | true => exact ⟨by simpa [accKeyDown] using h1, by simpa [accKeyDown] using h2,
      by simpa [accKeyDown] using h3⟩
  | false =>
    rw [accKeyDown_eq]
    have hm : ∀ m ∈ (if isModifierKey k then setAdd s.modifierKeys k else s.modifierKeys),
        isModifierKey m = true := by
      cases hmk : isModifierKey k with
      | true =>
        rw [if_pos rfl]
        intro m hmem
        rcases mem_setAdd _ _ _ hmem with hold | rfl
        · exact h1 m hold
        · exact hmk
      | false =>
        rw [if_neg (by simp)]
        exact h1
    have hr : ∀ x ∈ (if isModifierKey k then s.regularKeys else setAdd s.regularKeys k),
        isModifierKey x = false ∧ x ≠ "" := by
      cases hmk : isModifierKey k with
      | true =>
        rw [if_pos rfl]
        exact h2
      | false =>
        rw [if_neg (by simp)]
        intro x hmem
        rcases mem_setAdd _ _ _ hmem with hold | rfl
        · exact h2 x hold
        · exact ⟨hmk, hk⟩
    refine ⟨hm, hr, ?_⟩
    intro c hcp
    cases hkc : keyCombination
        (if isModifierKey k then setAdd s.modifierKeys k else s.modifierKeys)
        (if isModifierKey k then s.regularKeys else setAdd s.regularKeys k) with
    | none =>
      simp only [hkc] at hcp
      exact h3 c hcp
    | some combo =>
      simp only [hkc] at hcp
      obtain rfl : combo = c := Option.some_inj.mp hcp
      exact keyCombination_wellFormed _ _ hm hr combo hkc

theorem accOk_keyUp (s : AccState) (k : String) (h : AccOk s) :
    AccOk (accKeyUp s k) := by
  obtain ⟨h1, h2, h3⟩ := h
  unfold accKeyUp
  split
  · exact ⟨fun m hm => h1 m (List.mem_of_mem_filter hm), h2, h3⟩
  · exact ⟨h1, fun x hx => h2 x (List.mem_of_mem_filter hx), h3⟩

theorem fire_sequence_wf (st : FormState)
    (hseq : ∀ x ∈ st.sequence, wellFormedCombo x)
    (hacc : ∀ c, st.acc.pending = some c → wellFormedCombo c) :
    ∀ x ∈ (fireDebounce st).sequence, wellFormedCombo x := by
  unfold fireDebounce
  cases hp : st.acc.pending with
  | none => simpa using hseq
  | some c =>
    have hwf := hacc c hp
    simp only
    split_ifs with ht1 ht2 <;> intro x hx
    · obtain rfl : x = c := by simpa using hx
      exact hwf
    · have hx2 : x ∈ st.sequence ∨ x = c := by simpa using hx
      rcases hx2 with hold | rfl
      · exact hseq x hold
      · exact hwf
    · exact hseq x (by simpa using hx)

theorem mem_filterIdxNe (index : Nat) (l : List String) :
    ∀ (i : Nat) (x : String), x ∈ filterIdxNe index i l → x ∈ l := by
  induction l with
  | nil => intro i x hx; simpa [filterIdxNe] using hx
  | cons y ys ih =>
    intro i x hx
    unfold filterIdxNe at hx
    split at hx
    · exact List.mem_cons_of_mem y (ih (i + 1) x hx)
    · rcases List.mem_cons.mp hx with rfl | htail
      · exact List.mem_cons_self _ _
      · exact List.mem_cons_of_mem y (ih (i + 1) x htail)

/-- C7 (amended): the operations that write combinations produced by the
capture engine — a commit delivered in either capture mode, and
delete-at-index — preserve the invariant that every sequence element is
a well-formed combination string, and the accumulator keeps its commits
well-formed under key events carrying genuine (non-empty) key
identifiers; the free-text step replacement and the JSON parse accept
arbitrary strings and are exactly the operations that can break the
invariant. -/
theorem sequence_writes_wf :
    (∀ (s : AccState) (k : String) (r : Bool), k ≠ "" → AccOk s →
      AccOk (accKeyDown s k r)) ∧
    (∀ (s : AccState) (k : String), AccOk s → AccOk (accKeyUp s k)) ∧
    (∀ st : FormState, (∀ x ∈ st.sequence, wellFormedCombo x) →
      (∀ c, st.acc.pending = some c → wellFormedCombo c) →
      ∀ x ∈ (fireDebounce st).sequence, wellFormedCombo x) ∧
    (∀ (st : FormState) (i : Nat), (∀ x ∈ st.sequence, wellFormedCombo x) →
      ∀ x ∈ (handleDeleteCombination st i).sequence, wellFormedCombo x) := by
  refine ⟨accOk_keyDown, accOk_keyUp, fire_sequence_wf, ?_⟩
  intro st i hseq x hx
  exact hseq x (mem_filterIdxNe i st.sequence 0 x hx)

/-- Counterexample to C7 as stated: confirming a step edit writes the
free-text `editedStroke` — here the empty string — into the sequence,
and the empty string is not a well-formed combination. -/
theorem step_edit_breaks_invariant :
    (handleConfirmEdit ⟨"A", ["A"], false, false, Tab.record, some 0, "", accReset⟩).sequence
        = [""] ∧
    ¬ wellFormedCombo "" :=
  ⟨rfl, empty_not_wellFormed⟩

theorem sequence_writes_wf_witness :
    ∀ x ∈ (fireDebounce ⟨"", [], true, false, Tab.shortcut, none, "",
        ⟨[], ["A"], some "A"⟩⟩).sequence, wellFormedCombo x := by
  apply sequence_writes_wf.2.2.1
  · intro x hx
    simp at hx
  · intro c hc
    have hc2 : some "A" = some c := hc
    obtain rfl : c = "A" := (Option.some_inj.mp hc2).symm
    refine ⟨[], ["A"], by simp, ?_, by simp, rfl⟩
    intro r hr
    obtain rfl : r = "A" := by simpa using hr
    exact ⟨by decide, by decide⟩

/-! ## Claim C1 — JSON editor gating -/

/-- C1 (amended): a text that is not well-formed JSON is blocked with
the `MalformedText` condition, surfaced as "Invalid JSON format."; a
text that parses to `null` is blocked the same way, since the member
access throws a TypeError that the same catch surfaces with the same
message; a text that parses to a non-null value whose `sequence` or
`name` member access is missing or falsy is blocked with
`MissingRequiredFields`; only when both members are present and truthy
is a candidate produced — the parsed value, spread onto the existing
shortcut when editing. -/
theorem json_submit_guard (ex : Option Shortcut) (input : String) :
    (jsonParse input = none →
      handleSubmitJson ex input = .error .malformedText) ∧
    (jsonParse input = some Json.null →
      handleSubmitJson ex input = .error .malformedText) ∧
    (∀ j, jsonParse input = some j → isNullJson j = false →
      (truthy (jGet j "sequence") && truthy (jGet j "name")) = false →
      handleSubmitJson ex input = .error .missingRequiredFields) ∧
    (∀ j, jsonParse input = some j → isNullJson j = false →
      truthy (jGet j "sequence") = true → truthy (jGet j "name") = true →
      handleSubmitJson ex input = .ok (match ex with
        | some e => spreadMerge (shortcutToJson e) j
        | none => j)) ∧
    jsonErrText .malformedText = "Invalid JSON format." ∧
    jsonErrText .missingRequiredFields =
      "JSON must contain \x27sequence\x27 and \x27name\x27 fields." := by
  refine ⟨?_, ?_, ?_, ?_, rfl, rfl⟩
  · intro h
    unfold handleSubmitJson
    rw [h]
  · intro h
    unfold handleSubmitJson
    rw [h]
    rfl
  · intro j hj hnn hfalse
    unfold handleSubmitJson
    rw [hj]
    simp only [hnn, hfalse, if_false, Bool.false_eq_true, ite_false]
  · intro j hj hnn hseq hname
    unfold handleSubmitJson
    rw [hj]
    simp only [hnn, hseq, hname, Bool.and_self, Bool.false_eq_true, if_false, if_true,
      ite_true, ite_false]

theorem json_submit_guard_witness :
    handleSubmitJson none "oops" = .error .malformedText :=
  (json_submit_guard none "oops").1 rfl

/-- Counterexample to C1 as stated: the text parses and its `name`
member is present (and truthy), yet submission is blocked with
`MissingRequiredFields` instead of producing a candidate — both fields
are required, not at least one. -/
theorem json_name_only_blocked :
    jsonParse "\x7b\"name\":\"Test\"\x7d" = some (Json.obj [("name", Json.str "Test")]) ∧
    truthy (jGet (Json.obj [("name", Json.str "Test")]) "name") = true ∧
    handleSubmitJson none "\x7b\"name\":\"Test\"\x7d" = .error .missingRequiredFields :=
  ⟨rfl, rfl, rfl⟩

/-! ## Low-level lemmas for the JSON round trip -/

theorem skipWs_not_ws (c : Char) (cs : List Char) (h : isWsChar c = false) :
    skipWs (c :: cs) = c :: cs := by
  simp [skipWs, h]

theorem skipWs_ws (c : Char) (cs : List Char) (h : isWsChar c = true) :
    skipWs (c :: cs) = skipWs cs := by
  simp [skipWs, h]

theorem skipWs_indent (n : Nat) (cs : List Char) :
    skipWs (indentChars n ++ cs) = skipWs cs := by
  induction n with
  | zero => simp [indentChars]
  | succ m ih =>
    have : indentChars (m + 1) = ' ' :: indentChars m := by
      simp [indentChars, List.replicate_succ]
    rw [this, List.cons_append, skipWs_ws ' ' _ (by decide), ih]

theorem skipWs_newline_indent (n : Nat) (cs : List Char) :
    skipWs ('\n' :: (indentChars n ++ cs)) = skipWs cs := by
  rw [skipWs_ws '\n' _ (by decide), skipWs_indent]

theorem skipWs_idem (cs : List Char) : skipWs (skipWs cs) = skipWs cs := by
  induction cs with
  | nil => rfl
  | cons c cs ih =>
    by_cases h : isWsChar c = true
    · rw [skipWs_ws c cs h, ih]
    · rw [skipWs_not_ws c cs (by simpa using h), skipWs_not_ws c cs (by simpa using h)]

theorem hexVal_hexDigit (n : Nat) (h : n < 16) : hexVal (hexDigit n) = some n := by
  interval_cases n <;> decide

theorem digitChar_isDigit (m : Nat) (h : m < 10) :
    (Char.ofNat (48 + m)).isDigit = true := by
  interval_cases m <;> decide

theorem digitChar_toNat (m : Nat) (h : m < 10) :
    (Char.ofNat (48 + m)).toNat = 48 + m := by
  interval_cases m <;> decide

theorem digit_not_ws (c : Char) (h : c.isDigit = true) : isWsChar c = false := by
  have hb : 48 ≤ c.toNat ∧ c.toNat ≤ 57 := by
    simpa [Char.isDigit, Char.le_def, Char.toNat] using h
  by_contra hws
  have hws2 : isWsChar c = true := by simpa using hws
  have : c = ' ' ∨ c = '\n' ∨ c = '\t' ∨ c = '\r' := by
    simpa [isWsChar, or_assoc] using hws2
  rcases this with rfl | rfl | rfl | rfl <;> simp_all

/-- Decoded string bodies re-encode exactly: `readStr` inverts
`escStr`. -/
theorem readStr_escStr (cs : List Char) :
    ∀ rest, readStr (escStr cs ++ '"' :: rest) = some (cs, rest) := by
  induction cs with
  | nil =>
    intro rest
    rw [show escStr [] ++ '"' :: rest = '"' :: rest by simp [escStr]]
    rw [readStr.eq_def]
    simp
  | cons c cs ih =>
    intro rest
    by_cases h1 : c = '"'
    · subst h1
      simp only [escStr, escChar, reduceIte, List.cons_append, List.append_assoc,
        List.nil_append]
      rw [readStr.eq_def]
      simp [ih]
    by_cases h2 : c = '\\'
    · subst h2
      simp only [escStr, escChar, reduceIte, List.cons_append, List.append_assoc,
        List.nil_append]
      rw [readStr.eq_def]
      simp [ih]
    by_cases h3 : c = '\x08'
    · subst h3
      simp only [escStr, escChar, reduceIte, List.cons_append, List.append_assoc,
        List.nil_append]
      rw [readStr.eq_def]
      simp [ih]
    by_cases h4 : c = '\x09'
    · subst h4
      simp only [escStr, escChar, reduceIte, List.cons_append, List.append_assoc,
        List.nil_append]
      rw [readStr.eq_def]
      simp [ih]
    by_cases h5 : c = '\x0a'
    · subst h5
      simp only [escStr, escChar, reduceIte, List.cons_append, List.append_assoc,
        List.nil_append]
      rw [readStr.eq_def]
      simp [ih]
    by_cases h6 : c = '\x0c'
    · subst h6
      simp only [escStr, escChar, reduceIte, List.cons_append, List.append_assoc,
        List.nil_append]
      rw [readStr.eq_def]
      simp [ih]
    by_cases h7 : c = '\x0d'
    · subst h7
      simp only [escStr, escChar, reduceIte, List.cons_append, List.append_assoc,
        List.nil_append]
      rw [readStr.eq_def]
      simp [ih]
    by_cases h8 : c.toNat < 32
    · have hhi : hexVal (hexDigit (c.toNat / 16)) = some (c.toNat / 16) :=
        hexVal_hexDigit _ (by omega)
      have hlo : hexVal (hexDigit (c.toNat % 16)) = some (c.toNat % 16) :=
        hexVal_hexDigit _ (by omega)
      have h0 : hexVal '0' = some 0 := by decide
      have hval : (16 : Nat) * (c.toNat / 16) + c.toNat % 16 = c.toNat := by omega
      have hesc : escChar c =
          ['\\', 'u', '0', '0', hexDigit (c.toNat / 16), hexDigit (c.toNat % 16)] := by
        simp [escChar, h1, h2, h3, h4, h5, h6, h7, h8]
      simp only [escStr, hesc, List.cons_append, List.append_assoc, List.nil_append]
      rw [readStr.eq_def]
      simp [h0, hhi, hlo, ih, hval, Char.ofNat_toNat]
    · have hesc : escChar c = [c] := by
        simp [escChar, h1, h2, h3, h4, h5, h6, h7, h8]
      simp only [escStr, hesc, List.cons_append, List.append_assoc, List.nil_append]
      rw [readStr.eq_def]
      simp [h1, h2, h8, ih]

theorem digitsToNat_nil (acc : Nat) : digitsToNat acc [] = acc := rfl

theorem digitsToNat_cons (acc : Nat) (c : Char) (cs : List Char) :
    digitsToNat acc (c :: cs) = digitsToNat (10 * acc + (c.toNat - 48)) cs := rfl

theorem digitsToNat_append (a b : List Char) :
    ∀ acc, digitsToNat acc (a ++ b) = digitsToNat (digitsToNat acc a) b := by
  induction a with
  | nil => intro acc; rfl
  | cons c cstl ih =>
    intro acc
    show digitsToNat (10 * acc + (c.toNat - 48)) (cstl ++ b) = _
    rw [ih]
    rfl

theorem natDigitsAux_spec (fuel : Nat) :
    ∀ n, n < fuel →
      natDigitsAux fuel n ≠ [] ∧
      (∀ c ∈ natDigitsAux fuel n, c.isDigit = true) ∧
      (∀ acc, digitsToNat acc (natDigitsAux fuel n) =
        acc * 10 ^ (natDigitsAux fuel n).length + n) := by
  induction fuel with
  | zero => intro n hn; omega
  | succ f ih =>
    intro n hn
    by_cases hsmall : n < 10
    · refine ⟨by simp [natDigitsAux, hsmall], ?_, ?_⟩
      · intro c hc
        simp only [natDigitsAux, if_pos hsmall, List.mem_singleton] at hc
        subst hc
        exact digitChar_isDigit n hsmall
      · intro acc
        simp only [natDigitsAux, if_pos hsmall, List.length_singleton]
        rw [digitsToNat_cons, digitsToNat_nil, digitChar_toNat n hsmall, pow_one]
        omega
    · have hdiv : n / 10 < f := by
        have h1 : n / 10 < n := Nat.div_lt_self (by omega) (by omega)
        omega
      obtain ⟨ihne, ihdig, ihval⟩ := ih (n / 10) hdiv
      have hmod : n % 10 < 10 := Nat.mod_lt _ (by omega)
      refine ⟨by simp [natDigitsAux, hsmall], ?_, ?_⟩
      · intro c hc
        simp only [natDigitsAux, if_neg hsmall, List.mem_append, List.mem_singleton] at hc
        rcases hc with hc | hc
        · exact ihdig c hc
        · subst hc
          exact digitChar_isDigit _ hmod
      · intro acc
        simp only [natDigitsAux, if_neg hsmall]
        rw [digitsToNat_append, ihval acc, digitsToNat_cons, digitsToNat_nil]
        simp only [List.length_append, List.length_singleton]
        rw [digitChar_toNat _ hmod]
        have hsplit : 10 * (n / 10) + n % 10 = n := Nat.div_add_mod n 10
        have hpow : 10 ^ ((natDigitsAux f (n / 10)).length + 1) =
            10 ^ (natDigitsAux f (n / 10)).length * 10 := by ring
        rw [hpow]
        have hcomm : acc * (10 ^ (natDigitsAux f (n / 10)).length * 10) =
            10 * (acc * 10 ^ (natDigitsAux f (n / 10)).length) := by ring
        rw [hcomm]
        omega

theorem natDigits_ne_nil (n : Nat) : natDigits n ≠ [] :=
  (natDigitsAux_spec (n + 1) n (by omega)).1

theorem natDigits_all_digit (n : Nat) : ∀ c ∈ natDigits n, c.isDigit = true :=
  (natDigitsAux_spec (n + 1) n (by omega)).2.1

theorem natDigits_value (n : Nat) : digitsToNat 0 (natDigits n) = n := by
  have h := (natDigitsAux_spec (n + 1) n (by omega)).2.2 0
  simpa using h

/-- Holds when the list does not begin with a decimal digit. -/
def headNotDigit : List Char → Prop
  | [] => True
  | c :: _ => c.isDigit = false

theorem spanDigits_exact (ds : List Char) :
    ∀ rest, (∀ c ∈ ds, c.isDigit = true) → headNotDigit rest →
      spanDigits (ds ++ rest) = (ds, rest) := by
  induction ds with
  | nil =>
    intro rest _ hrest
    cases rest with
    | nil => rfl
    | cons c cs =>
      have hc : c.isDigit = false := hrest
      simp [spanDigits, hc]
  | cons d ds ih =>
    intro rest hall hrest
    have hd : d.isDigit = true := hall d (by simp)
    have htl := ih rest (fun c hc => hall c (by simp [hc])) hrest
    simp [spanDigits, hd, htl]

/-- Holds when the list cannot continue a number literal: its head is
no digit, no decimal point and no exponent marker. -/
def headStopsNumber : List Char → Prop
  | [] => True
  | c :: _ => c.isDigit = false ∧ c ≠ '.' ∧ c ≠ 'e' ∧ c ≠ 'E'

theorem headNotDigit_of_stops (cs : List Char) (h : headStopsNumber cs) :
    headNotDigit cs := by
  cases cs with
  | nil => trivial
  | cons c tl => exact h.1

theorem parseFrac_stop (cs : List Char) (h : headStopsNumber cs) :
    parseFrac cs = some (0, 0, cs) := by
  cases cs with
  | nil => rfl
  | cons c tl => simp [parseFrac, h.2.1]

theorem parseExp_stop (cs : List Char) (h : headStopsNumber cs) :
    parseExp cs = some (0, cs) := by
  cases cs with
  | nil => rfl
  | cons c tl => simp [parseExp, h.2.2.1, h.2.2.2]

theorem parseNumAfterSign_stop (neg : Bool) (cs r1 : List Char) (ip : Nat)
    (h1 : parseIntPart cs = some (ip, r1))
    (h2 : parseFrac r1 = some (0, 0, r1))
    (h3 : parseExp r1 = some (0, r1)) :
    parseNumAfterSign neg cs =
      some (.num (if neg then -(ip : ℚ) else (ip : ℚ)), r1) := by
  unfold parseNumAfterSign
  rw [h1]
  dsimp only
  rw [h2]
  dsimp only
  rw [h3]
  dsimp only
  norm_num

theorem natDigitsAux_head_ne_zero (fuel : Nat) :
    ∀ n, n < fuel → 1 ≤ n → ∀ d ds, natDigitsAux fuel n = d :: ds → d ≠ '0' := by
  induction fuel with
  | zero => intro n hn; omega
  | succ f ih =>
    intro n hn h1 d ds hds
    by_cases hsmall : n < 10
    · simp only [natDigitsAux, if_pos hsmall] at hds
      injection hds with hd0 hds0
      subst hd0
      interval_cases n <;> decide
    · simp only [natDigitsAux, if_neg hsmall] at hds
      have hdiv : n / 10 < f := by
        have hlt : n / 10 < n := Nat.div_lt_self (by omega) (by omega)
        omega
      have hne := (natDigitsAux_spec f (n / 10) hdiv).1
      cases hA : natDigitsAux f (n / 10) with
      | nil => exact absurd hA hne
      | cons a as =>
        rw [hA, List.cons_append] at hds
        injection hds with hd0 hds0
        exact hd0 ▸ ih (n / 10) hdiv (by omega) a as hA

theorem natDigits_head_ne_zero (i : Nat) (h1 : 1 ≤ i) (d : Char) (ds : List Char)
    (h : natDigits i = d :: ds) : d ≠ '0' :=
  natDigitsAux_head_ne_zero (i + 1) i (by omega) h1 d ds h

theorem string_mk_data (s : String) : String.mk s.data = s := by
  cases s
  rfl

theorem isDigit_toNat (c : Char) (h : c.isDigit = true) :
    48 ≤ c.toNat ∧ c.toNat ≤ 57 := by
  simpa [Char.isDigit, Char.le_def, Char.toNat] using h

/-- The value parser first discards leading whitespace, so it is
invariant under pre-applied `skipWs`. -/
theorem parseVal_congr_skipWs (fuel : Nat) (cs : List Char) :
    parseVal (fuel + 1) cs = parseVal (fuel + 1) (skipWs cs) := by
  conv_lhs => rw [parseVal]
  conv_rhs => rw [parseVal]
  rw [skipWs_idem]

theorem parseMember_congr_skipWs (fuel : Nat) (acc : List (String × Json))
    (cs : List Char) :
    parseMember (fuel + 1) acc cs = parseMember (fuel + 1) acc (skipWs cs) := by
  conv_lhs => rw [parseMember]
  conv_rhs => rw [parseMember]
  rw [skipWs_idem]

theorem parseObjTail_congr_skipWs (fuel : Nat) (acc : List (String × Json))
    (cs : List Char) :
    parseObjTail (fuel + 1) acc cs = parseObjTail (fuel + 1) acc (skipWs cs) := by
  conv_lhs => rw [parseObjTail]
  conv_rhs => rw [parseObjTail]
  rw [skipWs_idem]

theorem parseArrTail_congr_skipWs (fuel : Nat) (acc : List Json) (cs : List Char) :
    parseArrTail (fuel + 1) acc cs = parseArrTail (fuel + 1) acc (skipWs cs) := by
  conv_lhs => rw [parseArrTail]
  conv_rhs => rw [parseArrTail]
  rw [skipWs_idem]

/-- Parsing a serialized string literal. -/
theorem parseVal_str (fuel : Nat) (s : String) (rest : List Char) :
    parseVal (fuel + 1) ('"' :: (escStr s.data ++ '"' :: rest)) =
      some (.str s, rest) := by
  rw [parseVal]
  rw [skipWs_not_ws '"' _ (by decide)]
  simp [readStr_escStr, string_mk_data]

/-- Parsing a serialized natural number: a single `0` or a run of
digits with a non-zero leading digit, terminated by anything that
cannot continue a number literal. -/
theorem parseVal_natNum (fuel i : Nat) (rest : List Char) (hrest : headStopsNumber rest) :
    parseVal (fuel + 1) (natDigits i ++ rest) = some (.num (i : ℚ), rest) := by
  have hfrac : parseFrac rest = some (0, 0, rest) := parseFrac_stop rest hrest
  have hexp : parseExp rest = some (0, rest) := parseExp_stop rest hrest
  by_cases hi : i = 0
  · subst hi
    rw [show natDigits 0 = ['0'] from rfl, List.singleton_append]
    rw [parseVal, skipWs_not_ws '0' _ (by decide)]
    show parseNumAfterSign false ('0' :: rest) = some (.num ((0 : Nat) : ℚ), rest)
    rw [parseNumAfterSign_stop false ('0' :: rest) rest 0 rfl hfrac hexp]
    norm_num
  · cases hnd : natDigits i with
    | nil => exact absurd hnd (natDigits_ne_nil i)
    | cons d ds =>
      have hddig : d.isDigit = true := natDigits_all_digit i d (by rw [hnd]; simp)
      have hb := isDigit_toNat d hddig
      have hne1 : ¬ d = 'n' := fun he => by subst he; exact absurd hb (by decide)
      have hne2 : ¬ d = 't' := fun he => by subst he; exact absurd hb (by decide)
      have hne3 : ¬ d = 'f' := fun he => by subst he; exact absurd hb (by decide)
      have hne4 : ¬ d = '"' := fun he => by subst he; exact absurd hb (by decide)
      have hne5 : ¬ d = '[' := fun he => by subst he; exact absurd hb (by decide)
      have hne6 : ¬ d = '\x7b' := fun he => by subst he; exact absurd hb (by decide)
      have hne7 : ¬ d = '-' := fun he => by subst he; exact absurd hb (by decide)
      have hd0 : d ≠ '0' := natDigits_head_ne_zero i (by omega) d ds hnd
      have hspan2 : spanDigits (d :: (ds ++ rest)) = (d :: ds, rest) := by
        have hs := spanDigits_exact (natDigits i) rest (natDigits_all_digit i)
          (headNotDigit_of_stops rest hrest)
        rw [hnd] at hs
        simpa using hs
      have hval2 : digitsToNat 0 (d :: ds) = i := by rw [← hnd]; exact natDigits_value i
      have hip : parseIntPart (d :: (ds ++ rest)) = some (i, rest) := by
        unfold parseIntPart
        dsimp only
        rw [if_neg hd0, if_pos hddig, hspan2]
        dsimp only
        rw [hval2]
      rw [parseVal, List.cons_append]
      rw [skipWs_not_ws d _ (digit_not_ws d hddig)]
      simp only [hne1, hne2, hne3, hne4, hne5, hne6, hne7, hddig, if_false, if_true,
        ite_false, ite_true]
      rw [parseNumAfterSign_stop false (d :: (ds ++ rest)) rest i hip hfrac hexp]
      norm_num

theorem parseVal_congr (fuel : Nat) (cs1 cs2 : List Char) (h : skipWs cs1 = skipWs cs2) :
    parseVal fuel cs1 = parseVal fuel cs2 := by
  cases fuel with
  | zero => rfl
  | succ f =>
    rw [parseVal_congr_skipWs f cs1, parseVal_congr_skipWs f cs2, h]

theorem parseMember_congr (fuel : Nat) (acc : List (String × Json)) (cs1 cs2 : List Char)
    (h : skipWs cs1 = skipWs cs2) :
    parseMember fuel acc cs1 = parseMember fuel acc cs2 := by
  cases fuel with
  | zero => rfl
  | succ f =>
    rw [parseMember_congr_skipWs f acc cs1, parseMember_congr_skipWs f acc cs2, h]

theorem parseObjTail_congr (fuel : Nat) (acc : List (String × Json)) (cs1 cs2 : List Char)
    (h : skipWs cs1 = skipWs cs2) :
    parseObjTail fuel acc cs1 = parseObjTail fuel acc cs2 := by
  cases fuel with
  | zero => rfl
  | succ f =>
    rw [parseObjTail_congr_skipWs f acc cs1, parseObjTail_congr_skipWs f acc cs2, h]

theorem skipWs_natDigits (i : Nat) (tl : List Char) :
    skipWs (natDigits i ++ tl) = natDigits i ++ tl := by
  cases hnd : natDigits i with
  | nil => exact absurd hnd (natDigits_ne_nil i)
  | cons d ds =>
    rw [List.cons_append]
    exact skipWs_not_ws d _ (digit_not_ws d (natDigits_all_digit i d (by rw [hnd]; simp)))

theorem intChars_natCast (i : Nat) : intChars ((i : Nat) : Int) = natDigits i := by
  simp [intChars]

theorem intChars_ratNum_natCast (i : Nat) : intChars ((i : ℚ)).num = natDigits i := by
  rw [Rat.num_natCast]
  exact intChars_natCast i

theorem parseArrTail_comma (fuel : Nat) (acc : List Json) (cs : List Char) :
    parseArrTail (fuel + 1) acc (',' :: cs) =
      (match parseVal fuel cs with
       | some (v, rest2) => parseArrTail fuel (acc ++ [v]) rest2
       | none => none) := by
  rw [parseArrTail, skipWs_not_ws ',' _ (by decide)]
  rfl

theorem parseArrTail_close (fuel : Nat) (acc : List Json) (rest cs : List Char)
    (h : skipWs cs = ']' :: rest) :
    parseArrTail (fuel + 1) acc cs = some (.arr acc, rest) := by
  rw [parseArrTail, h]
  simp

/-- The array-continuation parser consumes a pretty-printed tail of
string elements and the closing bracket. -/
theorem parseArrTail_serItems (els : List String) (ind indB : Nat) (rest : List Char) :
    ∀ (acc : List Json) (fuel : Nat),
      parseArrTail (2 * els.length + 1 + fuel) acc
        (serItems ind (els.map Json.str) ++ '\n' :: (indentChars indB ++ ']' :: rest)) =
      some (.arr (acc ++ els.map Json.str), rest) := by
  induction els with
  | nil =>
    intro acc fuel
    simp only [List.length_nil, List.map_nil]
    rw [show 2 * 0 + 1 + fuel = fuel + 1 by omega]
    rw [show serItems ind ([] : List Json) = [] from rfl]
    rw [List.nil_append]
    rw [parseArrTail_close fuel acc rest _ (by
      rw [skipWs_newline_indent]
      exact skipWs_not_ws ']' _ (by decide))]
    simp
  | cons e es ih =>
    intro acc fuel
    simp only [List.length_cons, List.map_cons]
    rw [show 2 * (es.length + 1) + 1 + fuel = ((2 * es.length + 1 + fuel) + 1) + 1 by omega]
    rw [show serItems ind (Json.str e :: es.map Json.str) =
      ',' :: '\n' :: indentChars ind ++ ('"' :: escStr e.data ++ ['"']) ++
        serItems ind (es.map Json.str) from rfl]
    simp only [List.cons_append, List.append_assoc, List.singleton_append, List.nil_append]
    rw [parseArrTail_comma]
    have hv : parseVal ((2 * es.length + 1 + fuel) + 1) ('\n' :: (indentChars ind ++
        '"' :: (escStr e.data ++ '"' :: (serItems ind (es.map Json.str) ++
          '\n' :: (indentChars indB ++ ']' :: rest))))) =
        some (.str e, serItems ind (es.map Json.str) ++
          '\n' :: (indentChars indB ++ ']' :: rest)) := by
      rw [parseVal_congr ((2 * es.length + 1 + fuel) + 1) _
        ('"' :: (escStr e.data ++ '"' :: (serItems ind (es.map Json.str) ++
          '\n' :: (indentChars indB ++ ']' :: rest)))) (by
        rw [skipWs_newline_indent])]
      exact parseVal_str _ e _
    have ht : parseArrTail ((2 * es.length + 1 + fuel) + 1) (acc ++ [Json.str e])
        (serItems ind (es.map Json.str) ++ '\n' :: (indentChars indB ++ ']' :: rest)) =
        some (.arr ((acc ++ [Json.str e]) ++ es.map Json.str), rest) := by
      rw [show (2 * es.length + 1 + fuel) + 1 = 2 * es.length + 1 + (fuel + 1) by omega]
      exact ih (acc ++ [Json.str e]) (fuel + 1)
    simp [hv, ht]

/-- Parsing a pretty-printed array of string elements. -/
theorem parseVal_arrStr (els : List String) (ind : Nat) (rest : List Char) (fuel : Nat) :
    parseVal (2 * els.length + 2 + fuel) (serVal ind (.arr (els.map Json.str)) ++ rest) =
      some (.arr (els.map Json.str), rest) := by
  cases els with
  | nil =>
    simp only [List.length_nil, List.map_nil]
    rw [show 2 * 0 + 2 + fuel = (fuel + 1) + 1 by omega]
    rw [show serVal ind (Json.arr []) = ['[', ']'] from rfl]
    rw [List.cons_append, List.singleton_append, parseVal, skipWs_not_ws '[' _ (by decide)]
    have h1 : skipWs (']' :: rest) = ']' :: rest := skipWs_not_ws ']' rest (by decide)
    simp [h1]
  | cons e es =>
    simp only [List.length_cons, List.map_cons]
    rw [show 2 * (es.length + 1) + 2 + fuel = (2 * es.length + 3 + fuel) + 1 by omega]
    rw [show serVal ind (Json.arr (Json.str e :: es.map Json.str)) =
      '[' :: '\n' :: indentChars (ind + 2) ++ ('"' :: escStr e.data ++ ['"']) ++
        serItems (ind + 2) (es.map Json.str) ++ '\n' :: indentChars ind ++ [']'] from rfl]
    simp only [List.cons_append, List.append_assoc, List.singleton_append, List.nil_append]
    rw [parseVal, skipWs_not_ws '[' _ (by decide)]
    have hsk : skipWs ('\n' :: (indentChars (ind + 2) ++ '"' :: (escStr e.data ++ '"' ::
        (serItems (ind + 2) (es.map Json.str) ++ '\n' :: (indentChars ind ++ ']' :: rest))))) =
        '"' :: (escStr e.data ++ '"' ::
        (serItems (ind + 2) (es.map Json.str) ++ '\n' :: (indentChars ind ++ ']' :: rest))) := by
      rw [skipWs_newline_indent]
      exact skipWs_not_ws '"' _ (by decide)
    have hv : parseVal (2 * es.length + 3 + fuel) ('"' :: (escStr e.data ++ '"' ::
        (serItems (ind + 2) (es.map Json.str) ++ '\n' :: (indentChars ind ++ ']' :: rest)))) =
        some (.str e, serItems (ind + 2) (es.map Json.str) ++
          '\n' :: (indentChars ind ++ ']' :: rest)) := by
      rw [show 2 * es.length + 3 + fuel = (2 * es.length + 2 + fuel) + 1 by omega]
      exact parseVal_str _ e _
    have ht : parseArrTail (2 * es.length + 3 + fuel) [Json.str e]
        (serItems (ind + 2) (es.map Json.str) ++ '\n' :: (indentChars ind ++ ']' :: rest)) =
        some (.arr ([Json.str e] ++ es.map Json.str), rest) := by
      rw [show 2 * es.length + 3 + fuel = 2 * es.length + 1 + (fuel + 2) by omega]
      exact parseArrTail_serItems es (ind + 2) ind rest [Json.str e] (fuel + 2)
    simp [hsk, hv, ht]

/-- One object member with a space after the colon, as the serializer
emits. -/
theorem parseMember_key (fuel : Nat) (acc : List (String × Json)) (key : String)
    (tl : List Char) :
    parseMember (fuel + 1) acc ('"' :: (escStr key.data ++ '"' :: (':' :: ' ' :: tl))) =
      (match parseVal fuel (' ' :: tl) with
       | some (v, rest4) => parseObjTail fuel (acc ++ [(key, v)]) rest4
       | none => none) := by
  rw [parseMember, skipWs_not_ws '"' _ (by decide)]
  simp [readStr_escStr, string_mk_data, skipWs_not_ws ':' _ (by decide)]

theorem parseObjTail_comma (fuel : Nat) (acc : List (String × Json)) (cs : List Char) :
    parseObjTail (fuel + 1) acc (',' :: cs) = parseMember fuel acc cs := by
  rw [parseObjTail, skipWs_not_ws ',' _ (by decide)]
  rfl

theorem parseObjTail_end (fuel : Nat) (acc : List (String × Json)) (rest cs : List Char)
    (h : skipWs cs = '\x7d' :: rest) :
    parseObjTail (fuel + 1) acc cs = some (.obj acc, rest) := by
  rw [parseObjTail, h]
  simp

/-- A comma followed by a newline, member indentation and a quoted key
continues the object with that member. -/
theorem parseObjTail_comma_member (fuel : Nat) (acc : List (String × Json))
    (k : List Char) :
    parseObjTail (fuel + 1) acc (',' :: '\n' :: (indentChars 2 ++ '"' :: k)) =
      parseMember fuel acc ('"' :: k) := by
  rw [parseObjTail_comma]
  cases fuel with
  | zero => rfl
  | succ f =>
    exact parseMember_congr (f + 1) acc _ ('"' :: k) (skipWs_newline_indent 2 ('"' :: k))

/-- The final `sequence` member of the serialized shortcut object,
followed by the closing brace. -/
theorem parseMember_sequence (fuel : Nat) (seq : List String)
    (acc : List (String × Json)) (rest : List Char) :
    parseMember (2 * seq.length + 3 + fuel) acc
      ('"' :: (escStr "sequence".data ++ '"' :: (':' :: ' ' ::
        (serVal 2 (.arr (seq.map Json.str)) ++ '\n' :: (indentChars 0 ++ '\x7d' :: rest))))) =
      some (.obj (acc ++ [("sequence", Json.arr (seq.map Json.str))]), rest) := by
  rw [show 2 * seq.length + 3 + fuel = (2 * seq.length + 2 + fuel) + 1 by omega]
  rw [parseMember_key]
  have hv : parseVal (2 * seq.length + 2 + fuel) (' ' ::
      (serVal 2 (.arr (seq.map Json.str)) ++ '\n' :: (indentChars 0 ++ '\x7d' :: rest))) =
      some (.arr (seq.map Json.str), '\n' :: (indentChars 0 ++ '\x7d' :: rest)) := by
    rw [parseVal_congr _ _
      (serVal 2 (.arr (seq.map Json.str)) ++ '\n' :: (indentChars 0 ++ '\x7d' :: rest))
      (skipWs_ws ' ' _ (by decide))]
    exact parseVal_arrStr seq 2 _ fuel
  simp only [hv]
  rw [show 2 * seq.length + 2 + fuel = (2 * seq.length + 1 + fuel) + 1 by omega]
  exact parseObjTail_end _ _ _ _ (by
    rw [skipWs_newline_indent]
    exact skipWs_not_ws '\x7d' _ (by decide))

/-- A `name` member whose value is a serialized string, given the parse
of the object continuation. -/
theorem parseMember_name_then (fuel : Nat) (nm : String) (acc : List (String × Json))
    (cont : List Char) (out : Json × List Char)
    (hcont : parseObjTail (fuel + 1) (acc ++ [("name", Json.str nm)]) cont = some out) :
    parseMember (fuel + 2) acc ('"' :: (escStr "name".data ++ '"' :: (':' :: ' ' ::
      ('"' :: (escStr nm.data ++ '"' :: cont))))) = some out := by
  rw [show fuel + 2 = (fuel + 1) + 1 by omega]
  rw [parseMember_key]
  have hv : parseVal (fuel + 1) (' ' :: ('"' :: (escStr nm.data ++ '"' :: cont))) =
      some (.str nm, cont) := by
    rw [parseVal_congr _ _ ('"' :: (escStr nm.data ++ '"' :: cont))
      (skipWs_ws ' ' _ (by decide))]
    exact parseVal_str fuel nm cont
  simp only [hv]
  exact hcont

/-- An `id` member whose value is a serialized natural number, given the
parse of the object continuation. -/
theorem parseMember_id_then (fuel i : Nat) (acc : List (String × Json))
    (cont : List Char) (out : Json × List Char) (hd : headStopsNumber cont)
    (hcont : parseObjTail (fuel + 1) (acc ++ [("id", Json.num (i : ℚ))]) cont = some out) :
    parseMember (fuel + 2) acc ('"' :: (escStr "id".data ++ '"' :: (':' :: ' ' ::
      (natDigits i ++ cont)))) = some out := by
  rw [show fuel + 2 = (fuel + 1) + 1 by omega]
  rw [parseMember_key]
  have hv : parseVal (fuel + 1) (' ' :: (natDigits i ++ cont)) =
      some (.num (i : ℚ), cont) := by
    rw [parseVal_congr _ _ (natDigits i ++ cont) (by
      rw [skipWs_ws ' ' _ (by decide), skipWs_natDigits])]
    exact parseVal_natNum fuel i cont hd
  simp only [hv]
  exact hcont

/-- Parsing the pretty-printed shortcut object returns exactly the
JSON value of the shortcut and consumes exactly the serialized text. -/
theorem parseVal_shortcutJson (s : Shortcut) (rest : List Char) (fuel : Nat) :
    parseVal (2 * s.sequence.length + 8 + fuel) (serVal 0 (shortcutToJson s) ++ rest) =
      some (shortcutToJson s, rest) := by
  obtain ⟨id, nm, seq⟩ := s
  cases id with
  | some i =>
    cases nm with
    | some nm =>
      have hjson : shortcutToJson ⟨some i, some nm, seq⟩ =
          .obj [("id", Json.num (i : ℚ)), ("name", Json.str nm), ("sequence", Json.arr (seq.map Json.str))] := by
        simp [shortcutToJson]
      rw [hjson]
      rw [show (2 : Nat) * seq.length + 8 + fuel = (2 * seq.length + 7 + fuel) + 1 by omega]
      simp only [serVal, serMembers, intChars_ratNum_natCast, List.cons_append, List.append_assoc,
        List.nil_append, List.append_nil, List.singleton_append, Nat.zero_add]
      rw [show escStr ['i', 'd'] = escStr "id".data from rfl]
      rw [show escStr ['n', 'a', 'm', 'e'] = escStr "name".data from rfl]
      rw [show escStr ['s', 'e', 'q', 'u', 'e', 'n', 'c', 'e'] = escStr "sequence".data from rfl]
      rw [parseVal, skipWs_not_ws '\x7b' _ (by decide)]
      have hsk : skipWs ('\n' :: (indentChars 2 ++ ('"' :: (escStr "id".data ++ '"' :: (':' :: ' ' :: (natDigits i ++ (',' :: '\n' :: (indentChars 2 ++ ('"' :: (escStr "name".data ++ '"' :: (':' :: ' ' :: ('"' :: (escStr nm.data ++ '"' :: (',' :: '\n' :: (indentChars 2 ++ ('"' :: (escStr "sequence".data ++ '"' :: (':' :: ' ' :: (serVal 2 (Json.arr (seq.map Json.str)) ++ '\n' :: (indentChars 0 ++ '\x7d' :: rest)))))))))))))))))))) = ('"' :: (escStr "id".data ++ '"' :: (':' :: ' ' :: (natDigits i ++ (',' :: '\n' :: (indentChars 2 ++ ('"' :: (escStr "name".data ++ '"' :: (':' :: ' ' :: ('"' :: (escStr nm.data ++ '"' :: (',' :: '\n' :: (indentChars 2 ++ ('"' :: (escStr "sequence".data ++ '"' :: (':' :: ' ' :: (serVal 2 (Json.arr (seq.map Json.str)) ++ '\n' :: (indentChars 0 ++ '\x7d' :: rest)))))))))))))))))) := by
        rw [skipWs_newline_indent]
        exact skipWs_not_ws '"' _ (by decide)
      have hm : parseMember (2 * seq.length + 7 + fuel) [] ('"' :: (escStr "id".data ++ '"' :: (':' :: ' ' :: (natDigits i ++ (',' :: '\n' :: (indentChars 2 ++ ('"' :: (escStr "name".data ++ '"' :: (':' :: ' ' :: ('"' :: (escStr nm.data ++ '"' :: (',' :: '\n' :: (indentChars 2 ++ ('"' :: (escStr "sequence".data ++ '"' :: (':' :: ' ' :: (serVal 2 (Json.arr (seq.map Json.str)) ++ '\n' :: (indentChars 0 ++ '\x7d' :: rest)))))))))))))))))) =
          some (.obj ((([] ++ [("id", Json.num (i : ℚ))]) ++ [("name", Json.str nm)]) ++ [("sequence", Json.arr (seq.map Json.str))]), rest) := by
        rw [show 2 * seq.length + 7 + fuel = (2 * seq.length + 5 + fuel) + 2 by omega]
        refine parseMember_id_then _ _ _ _ _ ?_ ?_
        · exact ⟨rfl, by decide, by decide, by decide⟩
        · rw [parseObjTail_comma_member]
          rw [show 2 * seq.length + 5 + fuel = (2 * seq.length + 3 + fuel) + 2 by omega]
          apply parseMember_name_then
          rw [parseObjTail_comma_member]
          exact parseMember_sequence fuel seq _ rest
      simp [hsk, hm]
    | none =>
      have hjson : shortcutToJson ⟨some i, none, seq⟩ =
          .obj [("id", Json.num (i : ℚ)), ("sequence", Json.arr (seq.map Json.str))] := by
        simp [shortcutToJson]
      rw [hjson]
      rw [show (2 : Nat) * seq.length + 8 + fuel = (2 * seq.length + 7 + fuel) + 1 by omega]
      simp only [serVal, serMembers, intChars_ratNum_natCast, List.cons_append, List.append_assoc,
        List.nil_append, List.append_nil, List.singleton_append, Nat.zero_add]
      rw [show escStr ['i', 'd'] = escStr "id".data from rfl]
      rw [show escStr ['s', 'e', 'q', 'u', 'e', 'n', 'c', 'e'] = escStr "sequence".data from rfl]
      rw [parseVal, skipWs_not_ws '\x7b' _ (by decide)]
      have hsk : skipWs ('\n' :: (indentChars 2 ++ ('"' :: (escStr "id".data ++ '"' :: (':' :: ' ' :: (natDigits i ++ (',' :: '\n' :: (indentChars 2 ++ ('"' :: (escStr "sequence".data ++ '"' :: (':' :: ' ' :: (serVal 2 (Json.arr (seq.map Json.str)) ++ '\n' :: (indentChars 0 ++ '\x7d' :: rest))))))))))))) = ('"' :: (escStr "id".data ++ '"' :: (':' :: ' ' :: (natDigits i ++ (',' :: '\n' :: (indentChars 2 ++ ('"' :: (escStr "sequence".data ++ '"' :: (':' :: ' ' :: (serVal 2 (Json.arr (seq.map Json.str)) ++ '\n' :: (indentChars 0 ++ '\x7d' :: rest))))))))))) := by
        rw [skipWs_newline_indent]
        exact skipWs_not_ws '"' _ (by decide)
      have hm : parseMember (2 * seq.length + 7 + fuel) [] ('"' :: (escStr "id".data ++ '"' :: (':' :: ' ' :: (natDigits i ++ (',' :: '\n' :: (indentChars 2 ++ ('"' :: (escStr "sequence".data ++ '"' :: (':' :: ' ' :: (serVal 2 (Json.arr (seq.map Json.str)) ++ '\n' :: (indentChars 0 ++ '\x7d' :: rest))))))))))) =
          some (.obj (([] ++ [("id", Json.num (i : ℚ))]) ++ [("sequence", Json.arr (seq.map Json.str))]), rest) := by
        rw [show 2 * seq.length + 7 + fuel = (2 * seq.length + 5 + fuel) + 2 by omega]
        refine parseMember_id_then _ _ _ _ _ ?_ ?_
        · exact ⟨rfl, by decide, by decide, by decide⟩
        · rw [parseObjTail_comma_member]
          rw [show 2 * seq.length + 5 + fuel = 2 * seq.length + 3 + (fuel + 2) by omega]
          exact parseMember_sequence (fuel + 2) seq _ rest
      simp [hsk, hm]
  | none =>
    cases nm with
    | some nm =>
      have hjson : shortcutToJson ⟨none, some nm, seq⟩ =
          .obj [("name", Json.str nm), ("sequence", Json.arr (seq.map Json.str))] := by
        simp [shortcutToJson]
      rw [hjson]
      rw [show (2 : Nat) * seq.length + 8 + fuel = (2 * seq.length + 7 + fuel) + 1 by omega]
      simp only [serVal, serMembers, intChars_ratNum_natCast, List.cons_append, List.append_assoc,
        List.nil_append, List.append_nil, List.singleton_append, Nat.zero_add]
      rw [show escStr ['n', 'a', 'm', 'e'] = escStr "name".data from rfl]
      rw [show escStr ['s', 'e', 'q', 'u', 'e', 'n', 'c', 'e'] = escStr "sequence".data from rfl]
      rw [parseVal, skipWs_not_ws '\x7b' _ (by decide)]
      have hsk : skipWs ('\n' :: (indentChars 2 ++ ('"' :: (escStr "name".data ++ '"' :: (':' :: ' ' :: ('"' :: (escStr nm.data ++ '"' :: (',' :: '\n' :: (indentChars 2 ++ ('"' :: (escStr "sequence".data ++ '"' :: (':' :: ' ' :: (serVal 2 (Json.arr (seq.map Json.str)) ++ '\n' :: (indentChars 0 ++ '\x7d' :: rest)))))))))))))) = ('"' :: (escStr "name".data ++ '"' :: (':' :: ' ' :: ('"' :: (escStr nm.data ++ '"' :: (',' :: '\n' :: (indentChars 2 ++ ('"' :: (escStr "sequence".data ++ '"' :: (':' :: ' ' :: (serVal 2 (Json.arr (seq.map Json.str)) ++ '\n' :: (indentChars 0 ++ '\x7d' :: rest)))))))))))) := by
        rw [skipWs_newline_indent]
        exact skipWs_not_ws '"' _ (by decide)
      have hm : parseMember (2 * seq.length + 7 + fuel) [] ('"' :: (escStr "name".data ++ '"' :: (':' :: ' ' :: ('"' :: (escStr nm.data ++ '"' :: (',' :: '\n' :: (indentChars 2 ++ ('"' :: (escStr "sequence".data ++ '"' :: (':' :: ' ' :: (serVal 2 (Json.arr (seq.map Json.str)) ++ '\n' :: (indentChars 0 ++ '\x7d' :: rest)))))))))))) =
          some (.obj (([] ++ [("name", Json.str nm)]) ++ [("sequence", Json.arr (seq.map Json.str))]), rest) := by
        rw [show 2 * seq.length + 7 + fuel = (2 * seq.length + 5 + fuel) + 2 by omega]
        apply parseMember_name_then
        rw [parseObjTail_comma_member]
        rw [show 2 * seq.length + 5 + fuel = 2 * seq.length + 3 + (fuel + 2) by omega]
        exact parseMember_sequence (fuel + 2) seq _ rest
      simp [hsk, hm]
    | none =>
      have hjson : shortcutToJson ⟨none, none, seq⟩ =
          .obj [("sequence", Json.arr (seq.map Json.str))] := by
        simp [shortcutToJson]
      rw [hjson]
      rw [show (2 : Nat) * seq.length + 8 + fuel = (2 * seq.length + 7 + fuel) + 1 by omega]
      simp only [serVal, serMembers, intChars_ratNum_natCast, List.cons_append, List.append_assoc,
        List.nil_append, List.append_nil, List.singleton_append, Nat.zero_add]
      rw [show escStr ['s', 'e', 'q', 'u', 'e', 'n', 'c', 'e'] = escStr "sequence".data from rfl]
      rw [parseVal, skipWs_not_ws '\x7b' _ (by decide)]
      have hsk : skipWs ('\n' :: (indentChars 2 ++ ('"' :: (escStr "sequence".data ++ '"' :: (':' :: ' ' :: (serVal 2 (Json.arr (seq.map Json.str)) ++ '\n' :: (indentChars 0 ++ '\x7d' :: rest))))))) = ('"' :: (escStr "sequence".data ++ '"' :: (':' :: ' ' :: (serVal 2 (Json.arr (seq.map Json.str)) ++ '\n' :: (indentChars 0 ++ '\x7d' :: rest))))) := by
        rw [skipWs_newline_indent]
        exact skipWs_not_ws '"' _ (by decide)
      have hm : parseMember (2 * seq.length + 7 + fuel) [] ('"' :: (escStr "sequence".data ++ '"' :: (':' :: ' ' :: (serVal 2 (Json.arr (seq.map Json.str)) ++ '\n' :: (indentChars 0 ++ '\x7d' :: rest))))) =
          some (.obj ([] ++ [("sequence", Json.arr (seq.map Json.str))]), rest) := by
        rw [show 2 * seq.length + 7 + fuel = 2 * seq.length + 3 + (fuel + 4) by omega]
        exact parseMember_sequence (fuel + 4) seq _ rest
      simp [hsk, hm]

theorem serItems_length_ge (ind : Nat) (els : List String) :
    2 * els.length ≤ (serItems ind (els.map Json.str)).length := by
  induction els with
  | nil => simp [serItems]
  | cons e es ih =>
    rw [List.map_cons]
    rw [show serItems ind (Json.str e :: es.map Json.str) =
      ',' :: '\n' :: indentChars ind ++ serVal ind (.str e) ++
        serItems ind (es.map Json.str) from rfl]
    simp only [List.length_cons, List.length_append]
    omega

theorem serArr_length_ge (ind : Nat) (els : List String) :
    2 * els.length + 2 ≤ (serVal ind (.arr (els.map Json.str))).length := by
  cases els with
  | nil =>
    rw [List.map_nil, show serVal ind (Json.arr []) = ['[', ']'] from rfl]
    simp
  | cons e es =>
    rw [List.map_cons]
    rw [show serVal ind (Json.arr (Json.str e :: es.map Json.str)) =
      '[' :: '\n' :: indentChars (ind + 2) ++ serVal (ind + 2) (.str e) ++
        serItems (ind + 2) (es.map Json.str) ++ '\n' :: indentChars ind ++ [']'] from rfl]
    have h1 := serItems_length_ge (ind + 2) es
    simp only [List.length_cons, List.length_append, List.length_singleton]
    omega

theorem serShortcut_length_ge (s : Shortcut) :
    2 * s.sequence.length + 7 ≤ (serVal 0 (shortcutToJson s)).length := by
  obtain ⟨id, nm, seq⟩ := s
  have harr := serArr_length_ge 2 seq
  cases id <;> cases nm <;>
    (simp only [shortcutToJson, Option.map_some', Option.map_none', Option.toList_some,
      Option.toList_none, List.nil_append, List.cons_append, List.append_nil,
      serVal, serMembers, List.length_append, List.length_cons, List.length_singleton,
      List.length_nil, Nat.zero_add]
     omega)

/-! ## Claim C6 — serialize/parse round trip -/

/-- C6: for every valid shortcut, parsing the serialized editor text
succeeds and returns exactly the JSON value of the shortcut, whose `name`
member equals the name of the shortcut and whose `sequence` member is the
sequence of the shortcut. -/
theorem serialize_roundtrip (s : Shortcut) (h : s.sequence ≠ []) :
    jsonParse (serializeShortcut s) = some (shortcutToJson s) ∧
    jGet (shortcutToJson s) "name" = s.name.map Json.str ∧
    jGet (shortcutToJson s) "sequence" = some (Json.arr (s.sequence.map Json.str)) := by
  refine ⟨?_, ?_, ?_⟩
  · have hlen := serShortcut_length_ge s
    obtain ⟨d, hd⟩ : ∃ d, (serVal 0 (shortcutToJson s)).length + 1 =
        2 * s.sequence.length + 8 + d :=
      ⟨(serVal 0 (shortcutToJson s)).length + 1 - (2 * s.sequence.length + 8),
        by omega⟩
    have hp := parseVal_shortcutJson s [] d
    rw [List.append_nil] at hp
    unfold jsonParse serializeShortcut
    rw [show (String.mk (serVal 0 (shortcutToJson s))).length =
      (serVal 0 (shortcutToJson s)).length from rfl]
    rw [show (String.mk (serVal 0 (shortcutToJson s))).data =
      serVal 0 (shortcutToJson s) from rfl]
    rw [hd, hp]
    rfl
  · obtain ⟨id, nm, seq⟩ := s
    cases id <;> cases nm <;> simp [shortcutToJson, jGet, List.foldl]
  · obtain ⟨id, nm, seq⟩ := s
    cases id <;> cases nm <;> simp [shortcutToJson, jGet, List.foldl]

theorem serialize_roundtrip_witness :
    jsonParse (serializeShortcut ⟨some 1, some "Test", ["Control+K"]⟩) =
      some (shortcutToJson ⟨some 1, some "Test", ["Control+K"]⟩) ∧
    jGet (shortcutToJson ⟨some 1, some "Test", ["Control+K"]⟩) "name" =
      (some "Test" : Option String).map Json.str ∧
    jGet (shortcutToJson ⟨some 1, some "Test", ["Control+K"]⟩) "sequence" =
      some (Json.arr (["Control+K"].map Json.str)) :=
  serialize_roundtrip ⟨some 1, some "Test", ["Control+K"]⟩ (by decide)

/-! ## Claim C10 — empty sequence accepted at the JSON boundary -/

/-- C10: the editor text with a non-empty name and an empty sequence
array raises no error — the empty array is truthy — and the produced
candidate has an empty sequence: non-emptiness is not enforced at the
JSON boundary. -/
theorem json_empty_sequence_accepted :
    handleSubmitJson none "\x7b\"name\":\"x\",\"sequence\":[]\x7d" =
      .ok (Json.obj [("name", Json.str "x"), ("sequence", Json.arr [])]) ∧
    jGet (Json.obj [("name", Json.str "x"), ("sequence", Json.arr [])]) "sequence" =
      some (Json.arr []) :=
  ⟨rfl, rfl⟩

end ButtonBeam
